import Mathlib

/-!
Verification of the guji → guji-digital conversion engine
(`scripts/digitalize/converter.py` and `scripts/digitalize/plugins/siku_mulu.py`).

Python strings are modelled as `List Char`, Python ints as `Int` (or `Nat`
where the source value is always a non-negative count), Python dicts with a
`"type"` tag as closed inductive types.  Loops whose termination depends on
the data (the paragraph slicing loop, the jiazhu sub-column packing loops,
the taitou scanning loop, the line-scanning parser loop) are modelled with
an explicit fuel parameter; the top-level entry points supply a concrete
fuel and return `Option` / may return fuel-padded results exactly where the
Python loop may fail to terminate.
-/

namespace GujiConv

/-- The punctuation set `PUNCTUATION` of converter.py (line 25). -/
def PUNCTUATION : List Char := "，。、；：「」『』《》〈〉·？！（）〔〕".toList

/-- `strip_punct` (converter.py line 72): keep the characters not in `PUNCTUATION`. -/
def strip_punct (text : List Char) : List Char :=
  text.filter (fun c => !(PUNCTUATION.contains c))

/-- `strip_book_markers` (converter.py line 77): remove `《` and `》`. -/
def strip_book_markers (text : List Char) : List Char :=
  text.filter (fun c => !(c = '《' || c = '》'))

/-- Python `str` whitespace characters stripped by `str.strip()`. -/
def pyIsSpace (c : Char) : Bool :=
  c = ' ' || c = '\t' || c = '\n' || c = '\r' || c = '\x0b' || c = '\x0c'

/-- Python `str.lstrip()`. -/
def plstrip (s : List Char) : List Char := s.dropWhile pyIsSpace

/-- Python `str.rstrip()`. -/
def prstrip (s : List Char) : List Char := (s.reverse.dropWhile pyIsSpace).reverse

/-- Python `str.strip()`. -/
def pstrip (s : List Char) : List Char := prstrip (plstrip s)

/-- A segment of the jiazhu segment stream carried by a `jiazhu` block
(`{text, indent_delta, force_break}` dicts; `_placeholder` is the internal
marker used by the siku_mulu plugin before merging). -/
structure Seg where
  text : List Char
  indentDelta : Int
  forceBreak : Bool
  placeholder : Bool
deriving DecidableEq

/-- The semantic blocks produced by `Parser` (tagged dicts in the source). -/
inductive Block where
  | chapter (text : List Char)
  | newpage
  | yinzhang (raw : List Char)
  | text (text : List Char) (hasStyle : Bool)
  | tiaumu (level : Nat) (text : List Char)
  | paragraph (text : List Char) (indent firstIndent : Int)
  | jiazhu (text : List Char) (indent : Int) (segments : Option (List Seg))
deriving DecidableEq

/-- The column records produced by `Layouter` (tagged dicts in the source). -/
inductive Column where
  | chapter (text : List Char)
  | newpage
  | yinzhang (raw : List Char)
  | single (indent : Int) (text : List Char)
  | dual (indent : Int) (right left : List Char)
         (rightIndent leftIndent : Option Int)
deriving DecidableEq

/-! ## Layouter: paragraphs (`Layouter._layout_paragraph`, converter.py 440-461) -/

/-- The `while pos < len(text)` loop of `_layout_paragraph`: each round takes
`n_char_per_col - cur_indent` characters into one single column, where
`cur_indent` is `first_indent` on the first round and `indent` afterwards.
Fuel-padded; `none` means the fuel ran out (the Python loop would not have
terminated at this point when `n - indent ≤ 0`). -/
def paraLoop (n indent firstIndent : Int) :
    Nat → List Char → Bool → Option (List Column)
  | _, [], _ => some []
  | 0, _ :: _, _ => none
  | fuel + 1, text@(_ :: _), isFirst =>
      let curIndent := if isFirst then firstIndent else indent
      let w := n - curIndent
      let chunk := text.take w.toNat
      (paraLoop n indent firstIndent fuel (text.drop w.toNat) false).map
        (fun cols => Column.single curIndent chunk :: cols)

/-- `Layouter._layout_paragraph` on a paragraph block's fields. -/
def layoutParagraph (n : Int) (text : List Char) (indent firstIndent : Int) :
    Option (List Column) :=
  paraLoop n indent firstIndent (text.length + 1) text true

/-- Greedy chunking of a text into pieces of `w` characters (the spec's
"sliced greedily into column-width chunks"); only used with `1 ≤ w`, where
it agrees with repeated `take w`/`drop w`. -/
def chunksOf (w : Nat) : List Char → List (List Char)
  | [] => []
  | c :: rest => (c :: rest).take w :: chunksOf w (rest.drop (w - 1))
termination_by t => t.length
decreasing_by
  simp only [List.length_drop, List.length_cons]
  omega

theorem chunksOf_cons (w : Nat) (hw : 1 ≤ w) (c : Char) (rest : List Char) :
    chunksOf w (c :: rest) = (c :: rest).take w :: chunksOf w ((c :: rest).drop w) := by
  cases w with
  | zero => omega
  | succ m => simp [chunksOf, List.drop_succ_cons]

theorem chunksOf_length (w : Nat) (hw : 1 ≤ w) (t : List Char) :
    (chunksOf w t).length = (t.length + w - 1) / w := by
  cases t with
  | nil =>
    simp only [chunksOf, List.length_nil, Nat.zero_add]
    rw [Nat.div_eq_of_lt (by omega)]
  | cons c rest =>
    rw [chunksOf_cons w hw]
    by_cases hlen : rest.length + 1 ≤ w
    · have hdrop : (c :: rest).drop w = [] := by
        apply List.drop_eq_nil_of_le
        simpa using hlen
      rw [hdrop]
      simp only [chunksOf, List.length_cons, List.length_nil]
      have h1 : (rest.length + 1 + w - 1) / w = 1 :=
        Nat.div_eq_of_lt_le (by omega) (by omega)
      omega
    · have hrec := chunksOf_length w hw ((c :: rest).drop w)
      have hsub : ((c :: rest).drop w).length = rest.length + 1 - w := by
        simp [List.length_drop]
      simp only [List.length_cons, hrec, hsub]
      have h1 : rest.length + 1 + w - 1 = (rest.length + 1 - w + w - 1) + w := by
        omega
      rw [h1, Nat.add_div_right _ (by omega)]
termination_by t.length
decreasing_by
  simp only [List.length_drop, List.length_cons]
  omega

/-- The non-first rounds of the paragraph loop produce exactly the greedy
`n - indent`-wide chunks, each as a single column at `indent`. -/
theorem paraLoop_false (n indent firstIndent : Int) (hI : 0 < n - indent) :
    ∀ (fuel : Nat) (text : List Char), text.length < fuel →
      paraLoop n indent firstIndent fuel text false =
        some ((chunksOf (n - indent).toNat text).map
          (fun ch => Column.single indent ch)) := by
  intro fuel
  induction fuel with
  | zero => intro text h; omega
  | succ f ih =>
    intro text hlen
    cases text with
    | nil => simp [paraLoop, chunksOf]
    | cons c rest =>
      have hw : 1 ≤ (n - indent).toNat := by omega
      have hdroplen : ((c :: rest).drop (n - indent).toNat).length < f := by
        simp only [List.length_drop, List.length_cons]
        simp only [List.length_cons] at hlen
        omega
      simp only [paraLoop, if_neg (Bool.false_ne_true), ih _ hdroplen,
        Option.map_some]
      rw [chunksOf_cons _ hw]
      simp

/-- C3 (`functional_correctness`): a paragraph of length `L ≥ 1` with indent
`I`, first indent `F` and grid width `W` (with `W - F > 0`, `W - I > 0`)
yields the column list whose head holds the first `W - F` characters at
indent `F` and whose tail holds the greedy `W - I`-wide chunks of the rest
at indent `I`; its length is `1` when `L ≤ W - F` and
`1 + ⌈(L - (W - F)) / (W - I)⌉` otherwise. -/
theorem paragraph_layout_count (n indent firstIndent : Int) (text : List Char)
    (hL : text ≠ []) (hF : 0 < n - firstIndent) (hI : 0 < n - indent) :
    ∃ cols, layoutParagraph n text indent firstIndent = some cols ∧
      cols = Column.single firstIndent (text.take (n - firstIndent).toNat) ::
        (chunksOf (n - indent).toNat (text.drop (n - firstIndent).toNat)).map
          (fun ch => Column.single indent ch) ∧
      cols.length = if text.length ≤ (n - firstIndent).toNat then 1
        else 1 + (text.length - (n - firstIndent).toNat + (n - indent).toNat - 1) /
          (n - indent).toNat := by
  cases text with
  | nil => exact absurd rfl hL
  | cons c rest =>
    have hwF : 1 ≤ (n - firstIndent).toNat := by omega
    have hwI : 1 ≤ (n - indent).toNat := by omega
    have hdroplen :
        ((c :: rest).drop (n - firstIndent).toNat).length < rest.length + 1 := by
      simp only [List.length_drop, List.length_cons]
      omega
    refine ⟨_, ?_, rfl, ?_⟩
    · show paraLoop n indent firstIndent ((c :: rest).length + 1) (c :: rest) true = _
      simp only [List.length_cons, paraLoop, if_true,
        paraLoop_false n indent firstIndent hI _ _ hdroplen, Option.map]
    · simp only [List.length_cons, List.length_map]
      rw [chunksOf_length _ hwI]
      simp only [List.length_drop, List.length_cons]
      by_cases hle : rest.length + 1 ≤ (n - firstIndent).toNat
      · rw [if_pos hle]
        have hz : rest.length + 1 - (n - firstIndent).toNat = 0 := by omega
        rw [hz]
        rw [Nat.div_eq_of_lt (by omega)]
      · rw [if_neg hle]
        omega

/-- Demo paragraph text used by the witness below. -/
def demoParaText : List Char := "甲乙丙丁戊己庚".toList

/-- Witness for `paragraph_layout_count` at `W = 5`, `I = 1`, `F = 2`,
`L = 7`: two columns. -/
theorem paragraph_layout_count_witness :
    demoParaText ≠ [] ∧ (0 : Int) < 5 - 2 ∧ (0 : Int) < 5 - 1 ∧
    ∃ cols, layoutParagraph 5 demoParaText 1 2 = some cols ∧ cols.length = 2 := by
  refine ⟨by decide, by decide, by decide, ?_⟩
  obtain ⟨cols, h1, h2, h3⟩ :=
    paragraph_layout_count 5 1 2 demoParaText (by decide) (by decide) (by decide)
  refine ⟨cols, h1, ?_⟩
  rw [h3]
  decide

/-! ## Layouter: jiazhu sub-column packing
(`Layouter._layout_jiazhu_run`, converter.py 463-553) -/

/-- One element `(text, absolute_indent, force_break)` of the merged
`all_segments` stream (Step 1 of `_layout_jiazhu_run`). -/
structure SSeg where
  text : List Char
  indent : Int
  force : Bool
deriving DecidableEq

/-- The number of characters `take = min(remaining, available)` consumed by
one round of the inner filling loop (converter.py 515-516). -/
def takeAmt (seg : SSeg) (segPos : Nat) (remaining : Int) : Int :=
  min remaining ((seg.text.length : Int) - (segPos : Int))

/-- The tail of one round of the inner filling loop (converter.py 521-528),
after the current round's text has been appended: if the current segment is
exhausted, move to the next segment and stop early when there is remaining
width and the next segment changes indent or forces a break; otherwise
continue in the same segment. -/
def fillAfter (segs : List SSeg) (colIndent : Int)
    (rec : Nat → Nat → List Char → Int → Option (List Char × Nat × Nat))
    (segLen segIdx : Nat) (colText2 : List Char) (segPos2 : Nat)
    (remaining2 : Int) : Option (List Char × Nat × Nat) :=
  if segLen ≤ segPos2 then
    if h2 : 0 < remaining2 ∧ segIdx + 1 < segs.length then
      if (segs.get ⟨segIdx + 1, h2.2⟩).indent ≠ colIndent ∨
          (segs.get ⟨segIdx + 1, h2.2⟩).force = true then
        some (colText2, segIdx + 1, 0)
      else rec (segIdx + 1) 0 colText2 remaining2
    else rec (segIdx + 1) 0 colText2 remaining2
  else rec segIdx segPos2 colText2 remaining2

/-- The inner filling loop of Step 2 of `_layout_jiazhu_run`
(converter.py 513-528): greedily appends characters of the stream to the
current sub-column until the width is exhausted or the next segment has a
different indent or forces a break.  Returns the filled text and the new
stream position; fuel-padded (`none` = fuel ran out, which never happens
for the fuel supplied by `packLoop`). -/
def fillLoop (segs : List SSeg) (colIndent : Int) :
    Nat → Nat → Nat → List Char → Int → Option (List Char × Nat × Nat)
  | 0, _, _, _, _ => none
  | fuel + 1, segIdx, segPos, colText, remaining =>
    if h : 0 < remaining ∧ segIdx < segs.length then
      fillAfter segs colIndent (fillLoop segs colIndent fuel)
        (segs.get ⟨segIdx, h.2⟩).text.length segIdx
        (colText ++ ((segs.get ⟨segIdx, h.2⟩).text.drop segPos).take
          (takeAmt (segs.get ⟨segIdx, h.2⟩) segPos remaining).toNat)
        (segPos + (takeAmt (segs.get ⟨segIdx, h.2⟩) segPos remaining).toNat)
        (remaining - takeAmt (segs.get ⟨segIdx, h.2⟩) segPos remaining)
    else
      some (colText, segIdx, segPos)

/-- The outer sub-column loop of Step 2 of `_layout_jiazhu_run`
(converter.py 498-530): starts a sub-column at the indent of the first
unconsumed segment and fills it with `fillLoop`. -/
def packLoop (n : Int) (segs : List SSeg) :
    Nat → Nat → Nat → List (List Char × Int) → Option (List (List Char × Int))
  | 0, _, _, _ => none
  | fuel + 1, segIdx, segPos, acc =>
    if h : segIdx < segs.length then
      if (segs.get ⟨segIdx, h⟩).text.length ≤ segPos then
        packLoop n segs fuel (segIdx + 1) 0 acc
      else
        match fillLoop segs (segs.get ⟨segIdx, h⟩).indent (segs.length + 2) segIdx
            segPos [] (n - (segs.get ⟨segIdx, h⟩).indent) with
        | none => none
        | some (colText, segIdx2, segPos2) =>
            packLoop n segs fuel segIdx2 segPos2
              (acc ++ [(colText, (segs.get ⟨segIdx, h⟩).indent)])
    else
      some acc

/-- Total number of characters in the segment stream. -/
def streamLen : List SSeg → Nat
  | [] => 0
  | s :: rest => s.text.length + streamLen rest

/-- Step 2 of `_layout_jiazhu_run` run from the start of the stream, with
fuel covering every terminating execution of the Python loop. -/
def packSubcols (n : Int) (segs : List SSeg) : Option (List (List Char × Int)) :=
  packLoop n segs (streamLen segs + segs.length + 2) 0 0 []

/-- Step 1 of `_layout_jiazhu_run` (converter.py 471-487): expand a run of
consecutive jiazhu blocks into the merged segment stream.  A block with a
non-empty `segments` list contributes one stream segment per non-empty
segment text at `base_indent + indent_delta`; otherwise the block's own
text (if non-empty) at `base_indent` without a forced break.  Non-jiazhu
blocks never occur in a run. -/
def buildStream : List Block → List SSeg
  | [] => []
  | b :: rest =>
    (match b with
     | Block.jiazhu _ ind (some (s :: ss)) =>
         ((s :: ss).filter (fun x => !x.text.isEmpty)).map
           (fun x => ⟨x.text, ind + x.indentDelta, x.forceBreak⟩)
     | Block.jiazhu t ind _ => if t.isEmpty then [] else [⟨t, ind, false⟩]
     | _ => []) ++ buildStream rest

/-- Step 3 of `_layout_jiazhu_run` (converter.py 532-553): pair consecutive
sub-columns into dual columns; a trailing unmatched sub-column pairs with
an empty left side at its own indent; the dual column's indent is the right
sub-column's indent and the left indent is recorded only when it differs. -/
def pairDual : List (List Char × Int) → List Column
  | [] => []
  | [(rt, ri)] => [Column.dual ri rt [] none none]
  | (rt, ri) :: (lt, li) :: rest =>
      Column.dual ri rt lt none (if li ≠ ri then some li else none) :: pairDual rest

/-- `Layouter._layout_jiazhu_run` on a run of consecutive jiazhu blocks. -/
def layoutJiazhuRun (n : Int) (run : List Block) : Option (List Column) :=
  let segs := buildStream run
  if segs.isEmpty then some []
  else (packSubcols n segs).map pairDual

/-- Whether a block is a jiazhu block (used for run collection in
`Layouter.layout`, converter.py 419-428). -/
def isJiazhu : Block → Bool
  | Block.jiazhu _ _ _ => true
  | _ => false

theorem dropWhile_length_le (p : Block → Bool) (l : List Block) :
    (l.dropWhile p).length ≤ l.length := by
  induction l with
  | nil => simp
  | cons b rest ih =>
    rw [List.dropWhile_cons]
    by_cases hp : p b = true
    · rw [if_pos hp]
      simp only [List.length_cons]
      omega
    · rw [if_neg hp]

/-- `Layouter.layout` (converter.py 390-438): map the block list to the
column list.  Runs of consecutive jiazhu blocks are collected and handed to
`layoutJiazhuRun`. -/
def layout (n : Int) : List Block → Option (List Column)
  | [] => some []
  | b :: rest =>
    match b with
    | Block.chapter t => (layout n rest).map (fun cols => Column.chapter t :: cols)
    | Block.newpage => (layout n rest).map (fun cols => Column.newpage :: cols)
    | Block.yinzhang r => (layout n rest).map (fun cols => Column.yinzhang r :: cols)
    | Block.text t _ => (layout n rest).map (fun cols => Column.single 0 t :: cols)
    | Block.tiaumu lvl t =>
        (layout n rest).map (fun cols => Column.single (lvl : Int) t :: cols)
    | Block.paragraph t ind fInd =>
        match layoutParagraph n t ind fInd with
        | none => none
        | some cols => (layout n rest).map (fun more => cols ++ more)
    | Block.jiazhu t ind sg =>
        match layoutJiazhuRun n (Block.jiazhu t ind sg :: rest.takeWhile isJiazhu) with
        | none => none
        | some cols =>
            (layout n (rest.dropWhile isJiazhu)).map (fun more => cols ++ more)
termination_by blocks => blocks.length
decreasing_by
  all_goals simp only [List.length_cons]
  all_goals first
    | omega
    | exact Nat.lt_succ_of_le (dropWhile_length_le isJiazhu rest)

/-! ## Ghost functions describing stream positions, used to state the
packing invariants of claims C1/C2/C8. -/

/-- The character stream flattened, each character tagged with the indent of
the segment it belongs to. -/
def streamFlat : List SSeg → List (Char × Int)
  | [] => []
  | s :: rest => s.text.map (fun c => (c, s.indent)) ++ streamFlat rest

/-- The sub-column list flattened, each character tagged with the indent of
the sub-column it was packed into. -/
def subcolsFlat : List (List Char × Int) → List (Char × Int)
  | [] => []
  | q :: rest => q.1.map (fun c => (c, q.2)) ++ subcolsFlat rest

/-- The tagged character stream up to position `(i, p)` (segment index `i`,
character offset `p` inside segment `i`). -/
def flatTo : List SSeg → Nat → Nat → List (Char × Int)
  | [], _, _ => []
  | s :: _, 0, p => (s.text.take p).map (fun c => (c, s.indent))
  | s :: rest, i + 1, p => s.text.map (fun c => (c, s.indent)) ++ flatTo rest i p

/-- The absolute character offset of position `(i, p)` in the stream. -/
def posIdx : List SSeg → Nat → Nat → Nat
  | [], _, p => p
  | _ :: _, 0, p => p
  | s :: rest, i + 1, p => s.text.length + posIdx rest i p

/-- Total number of characters over a sub-column list. -/
def subLens : List (List Char × Int) → Nat
  | [] => 0
  | q :: rest => q.1.length + subLens rest

theorem flatTo_zero (segs : List SSeg) : flatTo segs 0 0 = [] := by
  cases segs <;> simp [flatTo]

theorem posIdx_zero (segs : List SSeg) : posIdx segs 0 0 = 0 := by
  cases segs <;> simp [posIdx]

theorem flatTo_ge (segs : List SSeg) : ∀ (i p : Nat), segs.length ≤ i →
    flatTo segs i p = streamFlat segs := by
  induction segs with
  | nil => intro i p _; simp [flatTo, streamFlat]
  | cons s rest ih =>
    intro i p hi
    cases i with
    | zero => simp at hi
    | succ j =>
      simp only [List.length_cons] at hi
      simp [flatTo, streamFlat, ih j p (by omega)]

theorem flatTo_mid (segs : List SSeg) : ∀ (i p t : Nat) (hi : i < segs.length),
    p + t ≤ (segs.get ⟨i, hi⟩).text.length →
    flatTo segs i (p + t) = flatTo segs i p ++
      (((segs.get ⟨i, hi⟩).text.drop p).take t).map
        (fun c => (c, (segs.get ⟨i, hi⟩).indent)) := by
  induction segs with
  | nil => intro i p t hi; simp at hi
  | cons s rest ih =>
    intro i p t hi hpt
    cases i with
    | zero =>
      simp only [flatTo, List.get]
      rw [List.take_add, List.map_append]
    | succ j =>
      simp only [List.length_cons] at hi
      simp only [flatTo, List.get]
      rw [ih j p t (by omega) hpt, List.append_assoc]

theorem flatTo_roll (segs : List SSeg) : ∀ (i : Nat) (hi : i < segs.length),
    flatTo segs (i + 1) 0 = flatTo segs i (segs.get ⟨i, hi⟩).text.length := by
  induction segs with
  | nil => intro i hi; simp at hi
  | cons s rest ih =>
    intro i hi
    cases i with
    | zero =>
      simp [flatTo, flatTo_zero, List.take_length]
    | succ j =>
      simp only [List.length_cons] at hi
      simp only [flatTo, List.get]
      rw [ih j (by omega)]

theorem posIdx_mid (segs : List SSeg) : ∀ (i p t : Nat),
    posIdx segs i (p + t) = posIdx segs i p + t := by
  induction segs with
  | nil => intro i p t; simp [posIdx]
  | cons s rest ih =>
    intro i p t
    cases i with
    | zero => simp [posIdx]
    | succ j => simp [posIdx, ih j p t]; omega

theorem posIdx_roll (segs : List SSeg) : ∀ (i : Nat) (hi : i < segs.length),
    posIdx segs (i + 1) 0 = posIdx segs i (segs.get ⟨i, hi⟩).text.length := by
  induction segs with
  | nil => intro i hi; simp at hi
  | cons s rest ih =>
    intro i hi
    cases i with
    | zero => simp [posIdx, posIdx_zero]
    | succ j =>
      simp only [List.length_cons] at hi
      simp only [posIdx]
      rw [ih j (by omega)]
      rfl

theorem posIdx_le_streamLen (segs : List SSeg) : ∀ (i p : Nat) (_ : i ≤ segs.length)
    (_ : ∀ hi : i < segs.length, p ≤ (segs.get ⟨i, hi⟩).text.length)
    (_ : i = segs.length → p = 0),
    posIdx segs i p ≤ streamLen segs := by
  induction segs with
  | nil =>
    intro i p hle hp hend
    simp only [List.length_nil, Nat.le_zero] at hle
    subst hle
    have hp0 : p = 0 := hend rfl
    simp [posIdx, streamLen, hp0]
  | cons s rest ih =>
    intro i p hle hp hend
    cases i with
    | zero =>
      have := hp (by simp)
      simp only [List.get] at this
      simp only [posIdx, streamLen]
      have h2 : streamLen rest + 0 ≤ streamLen rest := by omega
      omega
    | succ j =>
      simp only [List.length_cons] at hle hend
      simp only [posIdx, streamLen]
      have := ih j p (by omega) (fun hj => hp (by simpa using Nat.succ_lt_succ hj))
        (fun hj => hend (by omega))
      omega

theorem subcolsFlat_append (a b : List (List Char × Int)) :
    subcolsFlat (a ++ b) = subcolsFlat a ++ subcolsFlat b := by
  induction a with
  | nil => simp [subcolsFlat]
  | cons q rest ih => simp [subcolsFlat, ih]

theorem subLens_append (a b : List (List Char × Int)) :
    subLens (a ++ b) = subLens a + subLens b := by
  induction a with
  | nil => simp [subLens]
  | cons q rest ih => simp [subLens, ih]; omega

theorem streamFlat_ne_nil (s : SSeg) (rest : List SSeg) (h : s.text ≠ []) :
    streamFlat (s :: rest) ≠ [] := by
  simp only [streamFlat]
  intro hcon
  rcases List.append_eq_nil.mp hcon with ⟨h1, _⟩
  exact h (List.map_eq_nil_iff.mp h1)

/-- What one call of the inner filling loop does to the stream position:
the sub-column text grows by `added`, the position advances from `(i, p)`
to `(i2, p2)`, every character added is tagged with the sub-column's
indent, and the loop stops either at a segment boundary or strictly inside
a segment of the same indent; every segment entered strictly after the
starting one has the sub-column's indent and no forced break. -/
structure FillSpec (segs : List SSeg) (colIndent : Int) (i p i2 p2 : Nat)
    (added : List Char) : Prop where
  le1 : i ≤ i2
  le2 : i2 ≤ segs.length
  flat : flatTo segs i2 p2 = flatTo segs i p ++ added.map (fun c => (c, colIndent))
  pos : posIdx segs i2 p2 = posIdx segs i p + added.length
  stop : p2 = 0 ∨ ∃ h : i2 < segs.length,
    p2 < (segs.get ⟨i2, h⟩).text.length ∧ (segs.get ⟨i2, h⟩).indent = colIndent
  entered : ∀ k (hk : k < segs.length), i < k → (k < i2 ∨ (k = i2 ∧ 0 < p2)) →
    (segs.get ⟨k, hk⟩).indent = colIndent ∧ (segs.get ⟨k, hk⟩).force = false

theorem fillLoop_spec (segs : List SSeg) (colIndent : Int)
    (hne : ∀ s ∈ segs, s.text ≠ []) :
    ∀ (fuel : Nat), ∀ (i p : Nat) (ct : List Char) (r : Int)
      (hi : i < segs.length)
      (hp : p < (segs.get ⟨i, hi⟩).text.length)
      (hcol : (segs.get ⟨i, hi⟩).indent = colIndent)
      (hr : 0 < r)
      (hfuel : segs.length + 2 ≤ fuel + i),
      ∃ i2 p2 added,
        fillLoop segs colIndent fuel i p ct r = some (ct ++ added, i2, p2) ∧
        added ≠ [] ∧ FillSpec segs colIndent i p i2 p2 added := by
  intro fuel
  induction fuel with
  | zero => intro i p ct r hi _ _ _ hfuel; omega
  | succ f ih =>
    intro i p ct r hi hp hcol hr hfuel
    have hL : p < (segs.get ⟨i, hi⟩).text.length := hp
    have havail : (0 : Int) < ((segs.get ⟨i, hi⟩).text.length : Int) - (p : Int) := by
      omega
    have htk_pos : 0 < takeAmt (segs.get ⟨i, hi⟩) p r := by
      simp only [takeAmt, lt_min_iff]
      exact ⟨hr, havail⟩
    have htk_le : takeAmt (segs.get ⟨i, hi⟩) p r ≤
        ((segs.get ⟨i, hi⟩).text.length : Int) - (p : Int) :=
      min_le_right _ _
    have htkr : takeAmt (segs.get ⟨i, hi⟩) p r ≤ r := min_le_left _ _
    have htkN_pos : 0 < (takeAmt (segs.get ⟨i, hi⟩) p r).toNat := by omega
    have htkN_le : p + (takeAmt (segs.get ⟨i, hi⟩) p r).toNat ≤
        (segs.get ⟨i, hi⟩).text.length := by omega
    have hchunklen :
        (((segs.get ⟨i, hi⟩).text.drop p).take
          (takeAmt (segs.get ⟨i, hi⟩) p r).toNat).length =
        (takeAmt (segs.get ⟨i, hi⟩) p r).toNat := by
      simp only [List.length_take, List.length_drop]
      omega
    have hchunkne :
        ((segs.get ⟨i, hi⟩).text.drop p).take
          (takeAmt (segs.get ⟨i, hi⟩) p r).toNat ≠ [] := by
      intro hc
      rw [hc] at hchunklen
      simp only [List.length_nil] at hchunklen
      omega
    have hflatmid := flatTo_mid segs i p (takeAmt (segs.get ⟨i, hi⟩) p r).toNat hi htkN_le
    have hposmid := posIdx_mid segs i p (takeAmt (segs.get ⟨i, hi⟩) p r).toNat
    rw [hcol] at hflatmid
    simp only [fillLoop]
    rw [dif_pos ⟨hr, hi⟩]
    rw [fillAfter]
    by_cases hA : (segs.get ⟨i, hi⟩).text.length ≤
        p + (takeAmt (segs.get ⟨i, hi⟩) p r).toNat
    · have hAeq : p + (takeAmt (segs.get ⟨i, hi⟩) p r).toNat =
          (segs.get ⟨i, hi⟩).text.length := by omega
      rw [if_pos hA]
      have hflat_next : flatTo segs (i + 1) 0 =
          flatTo segs i p ++
            (((segs.get ⟨i, hi⟩).text.drop p).take
              (takeAmt (segs.get ⟨i, hi⟩) p r).toNat).map (fun c => (c, colIndent)) := by
        rw [flatTo_roll segs i hi, ← hAeq, hflatmid]
      have hpos_next : posIdx segs (i + 1) 0 =
          posIdx segs i p +
            (((segs.get ⟨i, hi⟩).text.drop p).take
              (takeAmt (segs.get ⟨i, hi⟩) p r).toNat).length := by
        rw [posIdx_roll segs i hi, ← hAeq, hposmid, hchunklen]
      by_cases h2 : 0 < r - takeAmt (segs.get ⟨i, hi⟩) p r ∧ i + 1 < segs.length
      · rw [dif_pos h2]
        by_cases hbr : (segs.get ⟨i + 1, h2.2⟩).indent ≠ colIndent ∨
            (segs.get ⟨i + 1, h2.2⟩).force = true
        · rw [if_pos hbr]
          refine ⟨i + 1, 0, _, rfl, hchunkne, ?_⟩
          exact {
            le1 := by omega
            le2 := by omega
            flat := hflat_next
            pos := hpos_next
            stop := Or.inl rfl
            entered := by intro k hk hik hor; omega }
        · rw [if_neg hbr]
          push_neg at hbr
          have hnextcol : (segs.get ⟨i + 1, h2.2⟩).indent = colIndent := hbr.1
          have hnextforce : (segs.get ⟨i + 1, h2.2⟩).force = false := by
            have := hbr.2
            simpa using this
          have hnne : (segs.get ⟨i + 1, h2.2⟩).text ≠ [] :=
            hne _ (List.get_mem segs (i + 1) h2.2)
          have hnp : 0 < (segs.get ⟨i + 1, h2.2⟩).text.length :=
            List.length_pos.mpr hnne
          obtain ⟨i2, p2, added2, heq, hadne, hspec⟩ :=
            ih (i + 1) 0 (ct ++ ((segs.get ⟨i, hi⟩).text.drop p).take
                (takeAmt (segs.get ⟨i, hi⟩) p r).toNat)
              (r - takeAmt (segs.get ⟨i, hi⟩) p r) h2.2 hnp hnextcol h2.1 (by omega)
          refine ⟨i2, p2,
            ((segs.get ⟨i, hi⟩).text.drop p).take
              (takeAmt (segs.get ⟨i, hi⟩) p r).toNat ++ added2, ?_, ?_, ?_⟩
          · rw [heq, List.append_assoc]
          · intro hcon
            exact hchunkne (List.append_eq_nil.mp hcon).1
          · exact {
              le1 := by have := hspec.le1; omega
              le2 := hspec.le2
              flat := by
                rw [hspec.flat, hflat_next, List.map_append, List.append_assoc]
              pos := by
                rw [hspec.pos, hpos_next, List.length_append]
                omega
              stop := hspec.stop
              entered := by
                intro k hk hik hor
                by_cases hki : k = i + 1
                · subst hki
                  exact ⟨hnextcol, hnextforce⟩
                · exact hspec.entered k hk (by omega) hor }
      · rw [dif_neg h2]
        cases f with
        | zero => omega
        | succ f2 =>
          simp only [fillLoop]
          rw [dif_neg h2]
          refine ⟨i + 1, 0, _, rfl, hchunkne, ?_⟩
          exact {
            le1 := by omega
            le2 := by omega
            flat := hflat_next
            pos := hpos_next
            stop := Or.inl rfl
            entered := by intro k hk hik hor; omega }
    · rw [if_neg hA]
      have htk_eq_r : takeAmt (segs.get ⟨i, hi⟩) p r = r := by
        have : takeAmt (segs.get ⟨i, hi⟩) p r = r ∨
            takeAmt (segs.get ⟨i, hi⟩) p r =
              ((segs.get ⟨i, hi⟩).text.length : Int) - (p : Int) := min_choice _ _
        rcases this with heq | heq
        · exact heq
        · exfalso
          apply hA
          rw [heq]
          omega
      have hr2 : r - takeAmt (segs.get ⟨i, hi⟩) p r = 0 := by omega
      rw [hr2]
      cases f with
      | zero => omega
      | succ f2 =>
        simp only [fillLoop]
        rw [dif_neg (by simp : ¬((0 : Int) < 0 ∧ i < segs.length))]
        refine ⟨i, p + (takeAmt (segs.get ⟨i, hi⟩) p r).toNat, _, rfl, hchunkne, ?_⟩
        exact {
          le1 := le_refl i
          le2 := by omega
          flat := by rw [hflatmid]
          pos := by rw [hposmid, hchunklen]
          stop := Or.inr ⟨hi, by omega, hcol⟩
          entered := by intro k hk hik hor; omega }

theorem take_append_le {α : Type} (a b : List α) (j : Nat) (h : j ≤ a.length) :
    (a ++ b).take j = a.take j := by
  rw [List.take_append_eq_append_take, Nat.sub_eq_zero_of_le h, List.take_zero,
    List.append_nil]

theorem take_append_self {α : Type} (a b : List α) :
    (a ++ b).take a.length = a := by
  rw [take_append_le a b a.length (le_refl _), List.take_length]

/-- The invariant of the outer packing loop at the top of an iteration:
the accumulated sub-columns flatten exactly to the consumed prefix of the
stream, every accumulated sub-column is non-empty, and the start of every
already-consumed force-break segment is a sub-column boundary. -/
structure PackInv (segs : List SSeg) (i p : Nat)
    (acc : List (List Char × Int)) : Prop where
  hle : i ≤ segs.length
  hp : ∀ h : i < segs.length, p < (segs.get ⟨i, h⟩).text.length
  hend : i = segs.length → p = 0
  hflat : subcolsFlat acc = flatTo segs i p
  hlen : subLens acc = posIdx segs i p
  hne : ∀ q ∈ acc, q.1 ≠ ([] : List Char)
  hbnd : ∀ k (hk : k < segs.length), (segs.get ⟨k, hk⟩).force = true →
    (k < i ∨ (k = i ∧ 0 < p)) →
    ∃ j, j ≤ acc.length ∧ subLens (acc.take j) = posIdx segs k 0

theorem packLoop_spec (n : Int) (segs : List SSeg)
    (hsne : ∀ s ∈ segs, s.text ≠ [])
    (hind : ∀ s ∈ segs, s.indent < n) :
    ∀ (fuel : Nat), ∀ (i p : Nat) (acc : List (List Char × Int)),
      PackInv segs i p acc →
      streamLen segs + segs.length + 2 ≤ fuel + posIdx segs i p + i →
      ∃ subcols, packLoop n segs fuel i p acc = some subcols ∧
        (∃ ext, subcols = acc ++ ext) ∧
        subcolsFlat subcols = streamFlat segs ∧
        (∀ q ∈ subcols, q.1 ≠ ([] : List Char)) ∧
        (∀ k (hk : k < segs.length), (segs.get ⟨k, hk⟩).force = true →
          ∃ j, j ≤ subcols.length ∧ subLens (subcols.take j) = posIdx segs k 0) := by
  intro fuel
  induction fuel with
  | zero =>
    intro i p acc inv hfuel
    exfalso
    have hple := posIdx_le_streamLen segs i p inv.hle
      (fun hi => le_of_lt (inv.hp hi)) inv.hend
    have hile := inv.hle
    omega
  | succ f ih =>
    intro i p acc inv hfuel
    by_cases hi : i < segs.length
    · simp only [packLoop]
      rw [dif_pos hi]
      rw [if_neg (by have := inv.hp hi; omega)]
      have hr : 0 < n - (segs.get ⟨i, hi⟩).indent := by
        have := hind _ (List.get_mem segs i hi)
        omega
      obtain ⟨i2, p2, added, heq, hadne, hfs⟩ :=
        fillLoop_spec segs (segs.get ⟨i, hi⟩).indent hsne (segs.length + 2) i p []
          (n - (segs.get ⟨i, hi⟩).indent) hi (inv.hp hi) rfl hr (by omega)
      rw [heq]
      simp only [List.nil_append]
      have haddlen : 0 < added.length := List.length_pos.mpr hadne
      have hinv2 : PackInv segs i2 p2 (acc ++ [(added, (segs.get ⟨i, hi⟩).indent)]) := by
        refine ⟨hfs.le2, ?_, ?_, ?_, ?_, ?_, ?_⟩
        · intro h2
          rcases hfs.stop with hz | ⟨h3, hlt, _⟩
          · subst hz
            exact List.length_pos.mpr (hsne _ (List.get_mem segs i2 h2))
          · exact hlt
        · intro h2
          rcases hfs.stop with hz | ⟨h3, _, _⟩
          · exact hz
          · omega
        · rw [subcolsFlat_append, inv.hflat, hfs.flat]
          simp [subcolsFlat]
        · rw [subLens_append, inv.hlen, hfs.pos]
          simp [subLens]
        · intro q hq
          rcases List.mem_append.mp hq with hq1 | hq2
          · exact inv.hne q hq1
          · simp only [List.mem_singleton] at hq2
            subst hq2
            exact hadne
        · intro k hk hforce hpos2
          by_cases hki : k < i ∨ (k = i ∧ 0 < p)
          · obtain ⟨j, hj1, hj2⟩ := inv.hbnd k hk hforce hki
            refine ⟨j, by simp only [List.length_append]; omega, ?_⟩
            rw [take_append_le acc _ j hj1]
            exact hj2
          · by_cases hki2 : k = i
            · subst hki2
              have hp0 : p = 0 := by omega
              refine ⟨acc.length, by simp, ?_⟩
              rw [take_append_self, inv.hlen, hp0]
            · have hik : i < k := by omega
              have := (hfs.entered k hk hik hpos2).2
              rw [hforce] at this
              exact absurd this (by simp)
      obtain ⟨subcols, heq2, ⟨ext, hext⟩, hflatF, hneF, hbndF⟩ :=
        ih i2 p2 (acc ++ [(added, (segs.get ⟨i, hi⟩).indent)]) hinv2
          (by have h1 := hfs.pos; have h2 := hfs.le1; omega)
      refine ⟨subcols, heq2, ⟨[(added, (segs.get ⟨i, hi⟩).indent)] ++ ext, ?_⟩,
        hflatF, hneF, hbndF⟩
      rw [hext, List.append_assoc]
    · have hieq : i = segs.length := by have := inv.hle; omega
      simp only [packLoop]
      rw [dif_neg hi]
      refine ⟨acc, rfl, ⟨[], by simp⟩, ?_, inv.hne, ?_⟩
      · rw [inv.hflat, flatTo_ge segs i p (by omega)]
      · intro k hk hforce
        exact inv.hbnd k hk hforce (Or.inl (by omega))

/-- The full specification of the jiazhu sub-column packing (Step 2 of
`_layout_jiazhu_run`) on streams of non-empty segments whose indents are
strictly below the grid width: it succeeds, the sub-columns flatten (each
character tagged with its sub-column's indent) to exactly the stream (each
character tagged with its segment's indent), every sub-column is
non-empty, and the start of every force-break segment is a sub-column
boundary. -/
theorem packSubcols_spec (n : Int) (segs : List SSeg)
    (hsne : ∀ s ∈ segs, s.text ≠ [])
    (hind : ∀ s ∈ segs, s.indent < n) :
    ∃ subcols, packSubcols n segs = some subcols ∧
      subcolsFlat subcols = streamFlat segs ∧
      (∀ q ∈ subcols, q.1 ≠ ([] : List Char)) ∧
      (∀ k (hk : k < segs.length), (segs.get ⟨k, hk⟩).force = true →
        ∃ j, j ≤ subcols.length ∧ subLens (subcols.take j) = posIdx segs k 0) := by
  have hinv : PackInv segs 0 0 [] := by
    refine ⟨by omega, ?_, ?_, ?_, ?_, ?_, ?_⟩
    · intro h
      exact List.length_pos.mpr (hsne _ (List.get_mem segs 0 h))
    · intro _; rfl
    · rw [flatTo_zero]; rfl
    · rw [posIdx_zero]; rfl
    · intro q hq; simp at hq
    · intro k hk _ hpos
      omega
  obtain ⟨subcols, heq, hext, hflat, hne2, hbnd⟩ :=
    packLoop_spec n segs hsne hind (streamLen segs + segs.length + 2) 0 0 [] hinv
      (by have := posIdx_zero segs; omega)
  exact ⟨subcols, heq, hflat, hne2, hbnd⟩

/-- The left sub-column text of a dual column (empty for other columns). -/
def dualLeftOf : Column → List Char
  | Column.dual _ _ l _ _ => l
  | _ => []

/-- The right sub-column indent override of a dual column (`none` for other
columns). -/
def dualRightIndentOf : Column → Option Int
  | Column.dual _ _ _ ro _ => ro
  | _ => none

theorem pairDual_ne_nil (sc : List (List Char × Int)) (h : sc ≠ []) :
    pairDual sc ≠ [] := by
  match sc with
  | [] => exact absurd rfl h
  | [(rt, ri)] => simp [pairDual]
  | (rt, ri) :: (lt, li) :: rest => simp [pairDual]

theorem pairDual_length (sc : List (List Char × Int)) :
    (pairDual sc).length = (sc.length + 1) / 2 := by
  match sc with
  | [] => simp [pairDual]
  | [(rt, ri)] => simp [pairDual]
  | (rt, ri) :: (lt, li) :: rest =>
    simp only [pairDual, List.length_cons]
    rw [pairDual_length rest]
    omega
termination_by sc.length

theorem pairDual_last (sc : List (List Char × Int)) (hne : sc ≠ [])
    (hall : ∀ q ∈ sc, q.1 ≠ ([] : List Char)) :
    ∃ d, (pairDual sc).getLast? = some d ∧
      (dualLeftOf d = [] ↔ sc.length % 2 = 1) ∧
      (sc.length % 2 = 1 → ∃ rt ri, sc.getLast? = some (rt, ri) ∧
        d = Column.dual ri rt [] none none) := by
  match sc with
  | [] => exact absurd rfl hne
  | [(rt, ri)] =>
    refine ⟨Column.dual ri rt [] none none, by simp [pairDual], ?_, ?_⟩
    · simp [dualLeftOf]
    · intro _
      exact ⟨rt, ri, by simp, rfl⟩
  | [(rt, ri), (lt, li)] =>
    refine ⟨Column.dual ri rt lt none (if li ≠ ri then some li else none),
      by simp [pairDual], ?_, ?_⟩
    · simp only [dualLeftOf, List.length_cons, List.length_nil]
      constructor
      · intro hlt
        exact absurd hlt (hall (lt, li) (by simp))
      · intro hmod
        omega
    · intro hmod
      simp at hmod
  | (rt, ri) :: (lt, li) :: r0 :: rest =>
    have hrne : r0 :: rest ≠ ([] : List (List Char × Int)) := by simp
    obtain ⟨d, hd1, hd2, hd3⟩ := pairDual_last (r0 :: rest) hrne
      (fun q hq => hall q (by simp only [List.mem_cons] at hq ⊢; tauto))
    refine ⟨d, ?_, ?_, ?_⟩
    · cases hpd : pairDual (r0 :: rest) with
      | nil => exact absurd hpd (pairDual_ne_nil _ hrne)
      | cons a l =>
        rw [show pairDual ((rt, ri) :: (lt, li) :: r0 :: rest) =
          Column.dual ri rt lt none (if li ≠ ri then some li else none) ::
            pairDual (r0 :: rest) from rfl, hpd]
        rw [hpd] at hd1
        rw [List.getLast?_cons_cons]
        exact hd1
    · have hlen3 : (r0 :: rest).length = rest.length + 1 := by simp
      rw [hd2, hlen3]
      simp only [List.length_cons]
      omega
    · intro hmod
      simp only [List.length_cons] at hmod
      obtain ⟨rt2, ri2, hlast, hdeq⟩ := hd3 (by simp only [List.length_cons]; omega)
      refine ⟨rt2, ri2, ?_, hdeq⟩
      rw [List.getLast?_cons_cons, List.getLast?_cons_cons]
      exact hlast
termination_by sc.length

/-- C1 (`invariants`): over a segment stream (non-empty texts, as built by
Step 1 of `_layout_jiazhu_run`) whose indents are all strictly less than
the grid width, the packing succeeds and (a) flattening the sub-columns
with each character tagged by its sub-column's indent reproduces exactly
the stream with each character tagged by its own segment's indent — so a
sub-column only ever contains characters of segments whose indent equals
the sub-column's indent — and (b) the starting offset of every
`force_break` segment is a sub-column boundary — so such a segment always
begins a new sub-column and never extends one with unused width. -/
theorem jiazhu_packing_purity (n : Int) (segs : List SSeg)
    (hsne : ∀ s ∈ segs, s.text ≠ [])
    (hind : ∀ s ∈ segs, s.indent < n) :
    ∃ subcols, packSubcols n segs = some subcols ∧
      subcolsFlat subcols = streamFlat segs ∧
      (∀ k (hk : k < segs.length), (segs.get ⟨k, hk⟩).force = true →
        ∃ j, j ≤ subcols.length ∧ subLens (subcols.take j) = posIdx segs k 0) := by
  obtain ⟨subcols, heq, hflat, hne2, hbnd⟩ := packSubcols_spec n segs hsne hind
  exact ⟨subcols, heq, hflat, hbnd⟩

/-- Demo stream for the C1 witness: the spec's worked example. -/
def demoSegsC1 : List SSeg :=
  [⟨"甲乙丙".toList, 0, false⟩, ⟨"丁".toList, 2, true⟩]

/-- Witness for `jiazhu_packing_purity` on the spec's worked example. -/
theorem jiazhu_packing_purity_witness :
    (∀ s ∈ demoSegsC1, s.text ≠ []) ∧ (∀ s ∈ demoSegsC1, s.indent < 5) ∧
    ∃ subcols, packSubcols 5 demoSegsC1 = some subcols ∧
      subcolsFlat subcols = streamFlat demoSegsC1 ∧
      (∀ k (hk : k < demoSegsC1.length), (demoSegsC1.get ⟨k, hk⟩).force = true →
        ∃ j, j ≤ subcols.length ∧ subLens (subcols.take j) = posIdx demoSegsC1 k 0) :=
  ⟨by decide, by decide, jiazhu_packing_purity 5 demoSegsC1 (by decide) (by decide)⟩

/-- C2 (`functional_correctness`): when the packing of a non-empty run
yields `N ≥ 1` sub-columns, pairing yields exactly `⌈N/2⌉` dual columns;
the last dual column's left text is empty iff `N` is odd, and when `N` is
odd the trailing sub-column becomes a dual column whose recorded indent is
its own indent with an empty left side and no left indent override. -/
theorem jiazhu_dual_pairing (n : Int) (segs : List SSeg)
    (hsne : ∀ s ∈ segs, s.text ≠ [])
    (hind : ∀ s ∈ segs, s.indent < n)
    (hs : segs ≠ []) :
    ∃ subcols, packSubcols n segs = some subcols ∧ 1 ≤ subcols.length ∧
      (pairDual subcols).length = (subcols.length + 1) / 2 ∧
      ∃ d, (pairDual subcols).getLast? = some d ∧
        (dualLeftOf d = [] ↔ subcols.length % 2 = 1) ∧
        (subcols.length % 2 = 1 → ∃ rt ri, subcols.getLast? = some (rt, ri) ∧
          d = Column.dual ri rt [] none none) := by
  obtain ⟨subcols, heq, hflat, hne2, hbnd⟩ := packSubcols_spec n segs hsne hind
  have hscne : subcols ≠ [] := by
    intro hcon
    subst hcon
    cases segs with
    | nil => exact hs rfl
    | cons s rest =>
      have h1 : streamFlat (s :: rest) ≠ [] :=
        streamFlat_ne_nil s rest (hsne s (by simp))
      exact h1 (by rw [← hflat]; rfl)
  obtain ⟨d, hd1, hd2, hd3⟩ := pairDual_last subcols hscne hne2
  refine ⟨subcols, heq, ?_, pairDual_length subcols, d, hd1, hd2, hd3⟩
  cases subcols with
  | nil => exact absurd rfl hscne
  | cons a l => simp

/-- Demo stream for the C2 witness: a single short segment, giving one
sub-column (`N = 1`, odd). -/
def demoSegsC2 : List SSeg := [⟨"丁".toList, 2, true⟩]

/-- Witness for `jiazhu_dual_pairing` on a one-segment stream. -/
theorem jiazhu_dual_pairing_witness :
    (∀ s ∈ demoSegsC2, s.text ≠ []) ∧ (∀ s ∈ demoSegsC2, s.indent < 5) ∧
    demoSegsC2 ≠ [] ∧
    ∃ subcols, packSubcols 5 demoSegsC2 = some subcols ∧ 1 ≤ subcols.length ∧
      (pairDual subcols).length = (subcols.length + 1) / 2 ∧
      ∃ d, (pairDual subcols).getLast? = some d ∧
        (dualLeftOf d = [] ↔ subcols.length % 2 = 1) ∧
        (subcols.length % 2 = 1 → ∃ rt ri, subcols.getLast? = some (rt, ri) ∧
          d = Column.dual ri rt [] none none) :=
  ⟨by decide, by decide, by decide,
   jiazhu_dual_pairing 5 demoSegsC2 (by decide) (by decide) (by decide)⟩

/-! ## Termination of `Layouter.layout` (claim C8) -/

/-- The indent condition of the spec (`chars_per_column = grid_width − indent
> 0` for every indent actually used): paragraph indent and first indent when
the text is non-empty; for jiazhu blocks, the indent `base + delta` of every
non-empty carried segment, or the base indent when the block contributes its
own non-empty text. -/
def blockFitsB (n : Int) : Block → Bool
  | Block.paragraph t ind fInd =>
      t.isEmpty || (decide (ind < n) && decide (fInd < n))
  | Block.jiazhu t ind sg =>
      match sg with
      | some (s :: ss) =>
          (s :: ss).all (fun x => x.text.isEmpty || decide (ind + x.indentDelta < n))
      | _ => t.isEmpty || decide (ind < n)
  | _ => true

theorem mem_takeWhile_mem {α : Type} (p : α → Bool) :
    ∀ (l : List α) (x : α), x ∈ l.takeWhile p → x ∈ l := by
  intro l
  induction l with
  | nil => intro x hx; simp [List.takeWhile] at hx
  | cons a rest ih =>
    intro x hx
    rw [List.takeWhile_cons] at hx
    by_cases hp : p a = true
    · rw [if_pos hp] at hx
      rcases List.mem_cons.mp hx with h | h
      · simp [h]
      · exact List.mem_cons_of_mem _ (ih x h)
    · rw [if_neg hp] at hx
      simp at hx

theorem mem_dropWhile_mem {α : Type} (p : α → Bool) :
    ∀ (l : List α) (x : α), x ∈ l.dropWhile p → x ∈ l := by
  intro l
  induction l with
  | nil => intro x hx; simp [List.dropWhile] at hx
  | cons a rest ih =>
    intro x hx
    rw [List.dropWhile_cons] at hx
    by_cases hp : p a = true
    · rw [if_pos hp] at hx
      exact List.mem_cons_of_mem _ (ih x hx)
    · rw [if_neg hp] at hx
      exact hx

theorem buildStream_sound (n : Int) : ∀ (run : List Block),
    (∀ b ∈ run, blockFitsB n b = true) →
    ∀ s ∈ buildStream run, s.text ≠ [] ∧ s.indent < n := by
  intro run
  induction run with
  | nil => intro _ s hs; simp [buildStream] at hs
  | cons b rest ih =>
    intro hfit s hs
    simp only [buildStream] at hs
    rcases List.mem_append.mp hs with h1 | h2
    · have hfb := hfit b (List.mem_cons_self _ _)
      cases b with
      | chapter t => simp at h1
      | newpage => simp at h1
      | yinzhang r => simp at h1
      | text t hstyle => simp at h1
      | tiaumu lvl t => simp at h1
      | paragraph t ind fInd => simp at h1
      | jiazhu t ind sg =>
        cases sg with
        | none =>
          simp only at h1
          by_cases ht : t.isEmpty
          · rw [if_pos ht] at h1
            simp at h1
          · rw [if_neg ht] at h1
            simp only [List.mem_singleton] at h1
            subst h1
            refine ⟨by simpa [List.isEmpty_iff] using ht, ?_⟩
            simp only [blockFitsB] at hfb
            rcases Bool.or_eq_true_iff.mp hfb with hcon | hlt
            · exact absurd hcon ht
            · exact of_decide_eq_true hlt
        | some l =>
          cases l with
          | nil =>
            simp only at h1
            by_cases ht : t.isEmpty
            · rw [if_pos ht] at h1
              simp at h1
            · rw [if_neg ht] at h1
              simp only [List.mem_singleton] at h1
              subst h1
              refine ⟨by simpa [List.isEmpty_iff] using ht, ?_⟩
              simp only [blockFitsB] at hfb
              rcases Bool.or_eq_true_iff.mp hfb with hcon | hlt
              · exact absurd hcon ht
              · exact of_decide_eq_true hlt
          | cons s0 ss =>
            simp only at h1
            rcases List.mem_map.mp h1 with ⟨x, hxmem, hxeq⟩
            have hxfil := List.of_mem_filter hxmem
            have hxorig := List.mem_of_mem_filter hxmem
            subst hxeq
            refine ⟨by simpa [List.isEmpty_iff] using hxfil, ?_⟩
            simp only [blockFitsB, List.all_eq_true] at hfb
            rcases Bool.or_eq_true_iff.mp (hfb x hxorig) with hcon | hlt
            · rw [Bool.not_eq_true'] at hxfil
              rw [hcon] at hxfil
              simp at hxfil
            · exact of_decide_eq_true hlt
    · exact ih (fun b2 hb2 => hfit b2 (List.mem_cons_of_mem _ hb2)) s h2

theorem pairDual_rightIndent (sc : List (List Char × Int)) :
    ∀ c ∈ pairDual sc, dualRightIndentOf c = none := by
  match sc with
  | [] => intro c hc; simp [pairDual] at hc
  | [(rt, ri)] =>
    intro c hc
    simp only [pairDual, List.mem_singleton] at hc
    subst hc
    rfl
  | (rt, ri) :: (lt, li) :: rest =>
    intro c hc
    simp only [pairDual, List.mem_cons] at hc
    rcases hc with h | h
    · subst h; rfl
    · exact pairDual_rightIndent rest c h
termination_by sc.length

theorem layoutJiazhuRun_some (n : Int) (run : List Block)
    (hfit : ∀ b ∈ run, blockFitsB n b = true) :
    ∃ cols, layoutJiazhuRun n run = some cols ∧
      ∀ c ∈ cols, dualRightIndentOf c = none := by
  have hsound := buildStream_sound n run hfit
  by_cases hseg : (buildStream run).isEmpty
  · refine ⟨[], ?_, by intro c hc; simp at hc⟩
    simp only [layoutJiazhuRun]
    rw [if_pos hseg]
  · obtain ⟨sc, heq, _, _, _⟩ :=
      packSubcols_spec n (buildStream run) (fun s hs => (hsound s hs).1)
        (fun s hs => (hsound s hs).2)
    refine ⟨pairDual sc, ?_, pairDual_rightIndent sc⟩
    simp only [layoutJiazhuRun]
    rw [if_neg hseg, heq]
    rfl

theorem paraLoop_right_none (n ind fInd : Int) :
    ∀ (fuel : Nat) (t : List Char) (isF : Bool) (cols : List Column),
      paraLoop n ind fInd fuel t isF = some cols →
      ∀ c ∈ cols, dualRightIndentOf c = none := by
  intro fuel
  induction fuel with
  | zero =>
    intro t isF cols h c hc
    cases t with
    | nil =>
      simp only [paraLoop, Option.some_inj] at h
      subst h
      simp at hc
    | cons a l => simp [paraLoop] at h
  | succ f ih =>
    intro t isF cols h c hc
    cases t with
    | nil =>
      simp only [paraLoop, Option.some_inj] at h
      subst h
      simp at hc
    | cons a l =>
      simp only [paraLoop, Option.map_eq_some'] at h
      obtain ⟨cols2, h2, hcols⟩ := h
      subst hcols
      rcases List.mem_cons.mp hc with hh | hh
      · subst hh; rfl
      · exact ih _ false cols2 h2 c hh

theorem layoutParagraph_some (n : Int) (t : List Char) (ind fInd : Int)
    (hok : (t.isEmpty || (decide (ind < n) && decide (fInd < n))) = true) :
    ∃ cols, layoutParagraph n t ind fInd = some cols := by
  cases t with
  | nil => exact ⟨[], rfl⟩
  | cons c rest =>
    rcases Bool.or_eq_true_iff.mp hok with hcon | hlt
    · simp [List.isEmpty] at hcon
    · rcases Bool.and_eq_true_iff.mp hlt with ⟨h1, h2⟩
      have hI : ind < n := of_decide_eq_true h1
      have hF : fInd < n := of_decide_eq_true h2
      have hdroplen :
          ((c :: rest).drop (n - fInd).toNat).length < rest.length + 1 := by
        simp only [List.length_drop, List.length_cons]
        omega
      refine ⟨Column.single fInd ((c :: rest).take (n - fInd).toNat) ::
        (chunksOf (n - ind).toNat ((c :: rest).drop (n - fInd).toNat)).map
          (fun ch => Column.single ind ch), ?_⟩
      show paraLoop n ind fInd ((c :: rest).length + 1) (c :: rest) true = _
      simp only [List.length_cons, paraLoop, if_true,
        paraLoop_false n ind fInd (by omega) _ _ hdroplen, Option.map]

/-- C8 (`termination_resources`): on any block list in which every actually
used indent leaves `grid_width − indent > 0` (see `blockFitsB`), the layout
stage terminates with a column list (the fuelled loops never run out). -/
theorem layout_terminates (n : Int) (blocks : List Block)
    (hfit : ∀ b ∈ blocks, blockFitsB n b = true) :
    ∃ cols, layout n blocks = some cols := by
  match blocks with
  | [] => exact ⟨[], by rw [layout]⟩
  | Block.chapter t :: rest =>
    obtain ⟨cols, hc⟩ :=
      layout_terminates n rest (fun b hb => hfit b (List.mem_cons_of_mem _ hb))
    exact ⟨Column.chapter t :: cols, by rw [layout, hc]; rfl⟩
  | Block.newpage :: rest =>
    obtain ⟨cols, hc⟩ :=
      layout_terminates n rest (fun b hb => hfit b (List.mem_cons_of_mem _ hb))
    exact ⟨Column.newpage :: cols, by rw [layout, hc]; rfl⟩
  | Block.yinzhang r :: rest =>
    obtain ⟨cols, hc⟩ :=
      layout_terminates n rest (fun b hb => hfit b (List.mem_cons_of_mem _ hb))
    exact ⟨Column.yinzhang r :: cols, by rw [layout, hc]; rfl⟩
  | Block.text t hstyle :: rest =>
    obtain ⟨cols, hc⟩ :=
      layout_terminates n rest (fun b hb => hfit b (List.mem_cons_of_mem _ hb))
    exact ⟨Column.single 0 t :: cols, by rw [layout, hc]; rfl⟩
  | Block.tiaumu lvl t :: rest =>
    obtain ⟨cols, hc⟩ :=
      layout_terminates n rest (fun b hb => hfit b (List.mem_cons_of_mem _ hb))
    exact ⟨Column.single (lvl : Int) t :: cols, by rw [layout, hc]; rfl⟩
  | Block.paragraph t ind fInd :: rest =>
    have hpfit := hfit _ (List.mem_cons_self _ _)
    simp only [blockFitsB] at hpfit
    obtain ⟨pcols, hp⟩ := layoutParagraph_some n t ind fInd hpfit
    obtain ⟨cols, hc⟩ :=
      layout_terminates n rest (fun b hb => hfit b (List.mem_cons_of_mem _ hb))
    exact ⟨pcols ++ cols, by rw [layout, hp, hc]; rfl⟩
  | Block.jiazhu t ind sg :: rest =>
    have hrunfit : ∀ b ∈ Block.jiazhu t ind sg :: rest.takeWhile isJiazhu,
        blockFitsB n b = true := by
      intro b hb
      rcases List.mem_cons.mp hb with h | h
      · subst h; exact hfit _ (List.mem_cons_self _ _)
      · exact hfit b (List.mem_cons_of_mem _ (mem_takeWhile_mem isJiazhu rest b h))
    obtain ⟨jcols, hj, _⟩ := layoutJiazhuRun_some n _ hrunfit
    obtain ⟨cols, hc⟩ := layout_terminates n (rest.dropWhile isJiazhu)
      (fun b hb => hfit b (List.mem_cons_of_mem _ (mem_dropWhile_mem isJiazhu rest b hb)))
    exact ⟨jcols ++ cols, by rw [layout, hj, hc]; rfl⟩
termination_by blocks.length
decreasing_by
  all_goals simp only [List.length_cons]
  all_goals first
    | omega
    | exact Nat.lt_succ_of_le (dropWhile_length_le isJiazhu rest)

/-- Demo block list for the C8 witness. -/
def demoBlocksC8 : List Block :=
  [Block.jiazhu "注文".toList 2 none, Block.paragraph "正文字".toList 0 0]

/-- Witness for `layout_terminates` at grid width 21. -/
theorem layout_terminates_witness :
    (∀ b ∈ demoBlocksC8, blockFitsB 21 b = true) ∧
    ∃ cols, layout 21 demoBlocksC8 = some cols :=
  ⟨by decide, layout_terminates 21 demoBlocksC8 (by decide)⟩

/-- C7 counterexample: `Layouter.layout` contains no emptiness check for
plain-text (or leveled-entry) blocks — a text block whose text is the empty
string still produces one single column (the dropping actually happens in
the parser, not in layout). -/
theorem layout_empty_text_counterexample :
    layout 21 [Block.text [] false] = some [Column.single 0 []] ∧
    layout 21 [Block.text [] false] ≠ some [] := by
  have h : layout 21 [Block.text [] false] = some [Column.single 0 []] := by
    rw [layout, layout]
    rfl
  exact ⟨h, by rw [h]; simp⟩

/-- C7 amended (`functional_correctness`): layout maps every plain-text and
every leveled-entry block to exactly one single column — also when the
block's text is empty; there is no drop in the layout stage (empty text
lines are instead dropped by the parser before blocks are created). -/
theorem layout_text_tiaumu_one_column (n : Int) :
    (∀ (t : List Char) (hstyle : Bool) (rest : List Block),
      layout n (Block.text t hstyle :: rest) =
        (layout n rest).map (fun cols => Column.single 0 t :: cols)) ∧
    (∀ (lvl : Nat) (t : List Char) (rest : List Block),
      layout n (Block.tiaumu lvl t :: rest) =
        (layout n rest).map (fun cols => Column.single (lvl : Int) t :: cols)) := by
  constructor
  · intro t hstyle rest
    rw [layout]
  · intro lvl t rest
    rw [layout]

/-! ## The reference plugin (`plugins/siku_mulu.py`):
`SikuMuluPlugin._process_taitou_commands` (siku_mulu.py 199-335) -/

/-- `str.find` on character lists: index of the first occurrence of `pat`,
`none` when absent. -/
def findSub (pat : List Char) : List Char → Option Nat
  | [] => if pat.isEmpty then some 0 else none
  | s@(_ :: rest) =>
    if pat.isPrefixOf s then some 0 else (findSub pat rest).map (fun k => k + 1)

/-- `\相对抬头` -/
def cmdXiangdui : List Char := "\\相对抬头".toList
/-- `\单抬` -/
def cmdDantai : List Char := "\\单抬".toList
/-- `\平抬` -/
def cmdPingtai : List Char := "\\平抬".toList
/-- `\國朝` -/
def cmdGuochao : List Char := "\\國朝".toList
/-- `\\` (TeX forced line break: two backslash characters) -/
def cmdLinebreak : List Char := ['\\', '\\']
/-- `TAITOU_CMDS` (siku_mulu.py 217) -/
def taitouCmds : List (List Char) := [cmdXiangdui, cmdDantai, cmdPingtai, cmdGuochao]
/-- `ALL_CMDS` (siku_mulu.py 218) -/
def allCmds : List (List Char) := taitouCmds ++ [cmdLinebreak]
/-- The fixed expansion text `國朝`. -/
def guochaoText : List Char := "國朝".toList

/-- One step of the earliest-command search (siku_mulu.py 231-235): keep the
strictly closer occurrence, earlier commands in the list winning ties. -/
def earliestStep (s : List Char) (best : Option (Nat × List Char))
    (cmd : List Char) : Option (Nat × List Char) :=
  match findSub cmd s with
  | none => best
  | some p =>
    match best with
    | none => some (p, cmd)
    | some (bp, _) => if p < bp then some (p, cmd) else best

/-- The earliest special command in `remaining` (siku_mulu.py 227-235). -/
def findEarliest (s : List Char) : Option (Nat × List Char) :=
  allCmds.foldl (earliestStep s) none

/-- The `\\`-prefix disambiguation (siku_mulu.py 236-242): when the earliest
match is `\\`, prefer a taitou command starting at the same position. -/
def resolveCmd (s : List Char) (p : Nat) (c : List Char) : List Char :=
  if c = cmdLinebreak then
    match taitouCmds.find? (fun t2 => t2.isPrefixOf (s.drop p)) with
    | some t2 => t2
    | none => c
  else c

/-- Value of an ASCII digit string. -/
def natOfDigits (ds : List Char) : Nat :=
  ds.foldl (fun acc c => acc * 10 + (c.toNat - '0'.toNat)) 0

/-- The argument match `\[(\d+)\]\{(.+?)\}` of `\相对抬头`
(siku_mulu.py 271): a bracketed digit string followed by a braced non-empty
body up to the first `}` (and `.` never matches a newline).  Returns the
number, the body and the rest of the input after the match. -/
def matchXiangduiArg (s : List Char) : Option (Nat × List Char × List Char) :=
  match s with
  | '[' :: rest1 =>
    if (rest1.takeWhile Char.isDigit).isEmpty then none
    else
      match rest1.drop (rest1.takeWhile Char.isDigit).length with
      | ']' :: '{' :: body =>
        if (body.takeWhile (fun c => c != '\x7d')).isEmpty then none
        else if (body.takeWhile (fun c => c != '\x7d')).length = body.length then none
        else if (body.takeWhile (fun c => c != '\x7d')).contains '\n' then none
        else some (natOfDigits (rest1.takeWhile Char.isDigit),
          body.takeWhile (fun c => c != '\x7d'),
          body.drop ((body.takeWhile (fun c => c != '\x7d')).length + 1))
      | _ => none
  | _ => none

/-- The scanning loop of `_process_taitou_commands` (siku_mulu.py 226-314),
producing the raw segment list (placeholders included) from `remaining`
onward, with `cur` the current absolute indent and `base` the base indent.
Fuel-padded; each iteration strictly shortens `remaining`, so the caller's
fuel `text.length + 1` always suffices. -/
def taitouLoop (base : Int) : Nat → List Char → Int → List Seg
  | 0, _, _ => []
  | fuel + 1, remaining, cur =>
    if remaining.isEmpty then []
    else
      match findEarliest remaining with
      | none =>
        if (pstrip remaining).isEmpty then []
        else [⟨pstrip remaining, cur - base, false, false⟩]
      | some (p, c0) =>
        (if (pstrip (remaining.take p)).isEmpty then []
         else [⟨pstrip (remaining.take p), cur - base, false, false⟩]) ++
        (if resolveCmd remaining p c0 = cmdDantai then
          (if (pstrip (plstrip (remaining.drop (p + (resolveCmd remaining p c0).length)))).isEmpty
           then [] else [⟨[], (-1 : Int) - base, true, true⟩]) ++
            taitouLoop base fuel
              (plstrip (remaining.drop (p + (resolveCmd remaining p c0).length))) (-1)
        else if resolveCmd remaining p c0 = cmdPingtai then
          (if (pstrip (plstrip (remaining.drop (p + (resolveCmd remaining p c0).length)))).isEmpty
           then [] else [⟨[], (0 : Int) - base, true, true⟩]) ++
            taitouLoop base fuel
              (plstrip (remaining.drop (p + (resolveCmd remaining p c0).length))) 0
        else if resolveCmd remaining p c0 = cmdXiangdui then
          match matchXiangduiArg
              (plstrip (remaining.drop (p + (resolveCmd remaining p c0).length))) with
          | some (k, ttext, rest2) =>
            ⟨ttext, (base - (k : Int)) - base, true, false⟩ ::
              taitouLoop base fuel (plstrip rest2) (base - (k : Int))
          | none =>
            taitouLoop base fuel
              (plstrip (remaining.drop (p + (resolveCmd remaining p c0).length))) cur
        else if resolveCmd remaining p c0 = cmdGuochao then
          ⟨guochaoText, cur - base, true, false⟩ ::
            taitouLoop base fuel
              (plstrip (remaining.drop (p + (resolveCmd remaining p c0).length))) cur
        else
          (if (pstrip (plstrip (remaining.drop (p + (resolveCmd remaining p c0).length)))).isEmpty
           then [] else [⟨[], cur - base, true, true⟩]) ++
            taitouLoop base fuel
              (plstrip (remaining.drop (p + (resolveCmd remaining p c0).length))) cur)

/-- The placeholder-merging pass (siku_mulu.py 317-335): an empty
placeholder passes its `force_break` and `indent_delta` on to the next
segment and disappears. -/
def mergeSegs : List Seg → List Seg
  | [] => []
  | s :: rest =>
    if s.placeholder && s.text.isEmpty then
      match rest with
      | [] => []
      | t :: rest2 =>
        mergeSegs ({ t with forceBreak := true, indentDelta := s.indentDelta } :: rest2)
    else s :: mergeSegs rest
termination_by l => l.length

theorem mergeSegs_cons (s : Seg) (tl : List Seg)
    (h : (s.placeholder && s.text.isEmpty) = false) :
    mergeSegs (s :: tl) = s :: mergeSegs tl := by
  cases tl with
  | nil =>
    simp only [mergeSegs]
    rw [if_neg (by simp [h])]
  | cons t rest2 =>
    simp only [mergeSegs]
    rw [if_neg (by simp [h])]

/-- `SikuMuluPlugin._process_taitou_commands` (siku_mulu.py 199-335). -/
def processTaitou (text : List Char) (base : Int) : List Seg :=
  if allCmds.all (fun c => (findSub c text).isNone) then [⟨text, 0, false, false⟩]
  else mergeSegs (taitouLoop base (text.length + 1) text base)

theorem findSub_zero_of_front (pat s : List Char) (hpre : pat.isPrefixOf s)
    (hs : s ≠ []) : findSub pat s = some 0 := by
  cases s with
  | nil => exact absurd rfl hs
  | cons a l =>
    rw [findSub, if_pos hpre]

theorem findSub_pos_of_not_prefix (pat s : List Char) (h : ¬ pat.isPrefixOf s = true) :
    ∀ k, findSub pat s = some k → 1 ≤ k := by
  intro k hk
  cases s with
  | nil =>
    cases pat with
    | nil => exact absurd (by simp [List.isPrefixOf]) h
    | cons a l =>
      rw [findSub, if_neg (by simp)] at hk
      cases hk
  | cons a l =>
    rw [findSub, if_neg h] at hk
    rcases Option.map_eq_some'.mp hk with ⟨k2, _, hk2⟩
    omega

/-- A search state that has not yet seen a position-0 match. -/
def GoodBest (b : Option (Nat × List Char)) : Prop :=
  b = none ∨ ∃ q c, b = some (q, c) ∧ 1 ≤ q

theorem earliestStep_good (s pat : List Char) (b : Option (Nat × List Char))
    (hb : GoodBest b) (h : ¬ pat.isPrefixOf s = true) :
    GoodBest (earliestStep s b pat) := by
  unfold earliestStep
  cases hfs : findSub pat s with
  | none => exact hb
  | some p =>
    have hp : 1 ≤ p := findSub_pos_of_not_prefix pat s h p hfs
    rcases hb with hb | ⟨q, c, hb, hq⟩
    · subst hb
      exact Or.inr ⟨p, pat, rfl, hp⟩
    · subst hb
      show GoodBest (if p < q then some (p, pat) else some (q, c))
      by_cases hlt : p < q
      · rw [if_pos hlt]
        exact Or.inr ⟨p, pat, rfl, hp⟩
      · rw [if_neg hlt]
        exact Or.inr ⟨q, c, rfl, hq⟩

theorem earliestStep_front (s pat : List Char) (b : Option (Nat × List Char))
    (hb : GoodBest b) (hpre : pat.isPrefixOf s) (hs : s ≠ []) :
    earliestStep s b pat = some (0, pat) := by
  unfold earliestStep
  rw [findSub_zero_of_front pat s hpre hs]
  rcases hb with hb | ⟨q, c, hb, hq⟩
  · subst hb; rfl
  · subst hb
    show (if 0 < q then some (0, pat) else some (q, c)) = some (0, pat)
    rw [if_pos (by omega)]

theorem earliestStep_keep_zero (s pat : List Char) (c : List Char) :
    earliestStep s (some (0, c)) pat = some (0, c) := by
  unfold earliestStep
  cases hfs : findSub pat s with
  | none => rfl
  | some p =>
    show (if p < 0 then some (p, pat) else some (0, c)) = some (0, c)
    rw [if_neg (by omega)]

theorem cmdGuochao_eq : cmdGuochao = ['\\', '國', '朝'] := rfl

theorem findEarliest_guochao (rest : List Char) :
    findEarliest (cmdGuochao ++ rest) = some (0, cmdGuochao) := by
  have hs : cmdGuochao ++ rest ≠ [] := by
    rw [cmdGuochao_eq]
    simp
  have hpre : cmdGuochao.isPrefixOf (cmdGuochao ++ rest) = true := by
    rw [cmdGuochao_eq]
    simp [List.isPrefixOf]
  have hX : ¬ cmdXiangdui.isPrefixOf (cmdGuochao ++ rest) = true := by
    rw [cmdGuochao_eq]
    intro hcon
    simp [cmdXiangdui, List.isPrefixOf] at hcon
  have hD : ¬ cmdDantai.isPrefixOf (cmdGuochao ++ rest) = true := by
    rw [cmdGuochao_eq]
    intro hcon
    simp [cmdDantai, List.isPrefixOf] at hcon
  have hP : ¬ cmdPingtai.isPrefixOf (cmdGuochao ++ rest) = true := by
    rw [cmdGuochao_eq]
    intro hcon
    simp [cmdPingtai, List.isPrefixOf] at hcon
  have hL : ¬ cmdLinebreak.isPrefixOf (cmdGuochao ++ rest) = true := by
    rw [cmdGuochao_eq]
    intro hcon
    simp [cmdLinebreak, List.isPrefixOf] at hcon
  have hgood0 : GoodBest (none : Option (Nat × List Char)) := Or.inl rfl
  have hgood1 := earliestStep_good _ _ _ hgood0 hX
  have hgood2 := earliestStep_good _ _ _ hgood1 hD
  have hgood3 := earliestStep_good _ _ _ hgood2 hP
  show List.foldl (earliestStep (cmdGuochao ++ rest)) none
    [cmdXiangdui, cmdDantai, cmdPingtai, cmdGuochao, cmdLinebreak] = some (0, cmdGuochao)
  simp only [List.foldl_cons, List.foldl_nil]
  rw [earliestStep_front _ _ _ hgood3 hpre hs, earliestStep_keep_zero]

/-- The one-step behaviour of the taitou scanning loop on an input that
begins with the dynasty-name marker `\國朝`: it emits the fixed segment
`國朝` at the *current* contextual indent (`indent_delta = cur − base`),
with a forced break, and continues after the marker. -/
theorem taitouLoop_guochao_step (rest : List Char) (cur base : Int) (fuel : Nat) :
    taitouLoop base (fuel + 1) (cmdGuochao ++ rest) cur =
      ⟨guochaoText, cur - base, true, false⟩ ::
        taitouLoop base fuel (plstrip rest) cur := by
  have hne : (cmdGuochao ++ rest).isEmpty = false := by
    rw [cmdGuochao_eq]
    simp
  have hdrop : (cmdGuochao ++ rest).drop (0 + cmdGuochao.length) = rest := by
    rw [cmdGuochao_eq]
    rfl
  have hres : resolveCmd (cmdGuochao ++ rest) 0 cmdGuochao = cmdGuochao := by
    rw [resolveCmd, if_neg (by decide)]
  rw [taitouLoop]
  rw [if_neg (by rw [hne]; simp)]
  rw [findEarliest_guochao]
  simp only [hres, hdrop]
  rw [if_neg (by decide : ¬ cmdGuochao = cmdDantai)]
  rw [if_neg (by decide : ¬ cmdGuochao = cmdPingtai)]
  rw [if_neg (by decide : ¬ cmdGuochao = cmdXiangdui)]
  rw [if_pos trivial]
  rw [if_pos (by simp [pstrip, plstrip, prstrip] :
    (pstrip ((cmdGuochao ++ rest).take 0)).isEmpty = true)]
  rw [List.nil_append]

/-- C5 counterexample: on the input `\國朝` with base indent 2 the live
expansion (`_process_taitou_commands`) emits the segment `國朝` with
`indent_delta = 0` — absolute indent `2`, the unchanged contextual indent —
not `indent_delta = (2−1)−2 = −1` as the claim's "absolute indent is
`base_indent − 1`" would require.  (The `base−1` behaviour only exists in
the dead helper `_process_guochao`, which no live code path calls.) -/
theorem guochao_indent_counterexample :
    processTaitou cmdGuochao 2 = [⟨guochaoText, 0, true, false⟩] ∧
    ∀ s ∈ processTaitou cmdGuochao 2, s.indentDelta ≠ (2 - 1) - 2 := by
  have h1 : processTaitou cmdGuochao 2 =
      mergeSegs (taitouLoop 2 (cmdGuochao.length + 1) cmdGuochao 2) := by
    rw [processTaitou, if_neg (by decide)]
  have h2 : taitouLoop 2 (cmdGuochao.length + 1) cmdGuochao 2 =
      [⟨guochaoText, 0, true, false⟩] := by
    have hstep := taitouLoop_guochao_step [] 2 2 cmdGuochao.length
    rw [List.append_nil] at hstep
    rw [hstep]
    have hnil : taitouLoop 2 cmdGuochao.length (plstrip []) 2 = [] := by decide
    rw [hnil]
    norm_num
  have h3 : processTaitou cmdGuochao 2 = [⟨guochaoText, 0, true, false⟩] := by
    rw [h1, h2]
    simp only [mergeSegs]
    rw [if_neg (by simp)]
  refine ⟨h3, ?_⟩
  rw [h3]
  intro s hs
  simp only [List.mem_singleton] at hs
  subst hs
  decide

/-- C5 amended (`functional_correctness`): in the reference plugin's
annotation expansion, each occurrence of the dynasty-name marker `\國朝`
produces a segment whose text is the fixed two-character string `國朝` and
which has `force_break = true`, but whose absolute indent equals the
*prevailing contextual indent at that point* (`indent_delta = cur − base`;
in particular `base_indent` itself when no elevation command precedes it) —
the marker does not change the indent, and in particular its indent is not
`base_indent − 1`. -/
theorem guochao_expansion_amended (rest : List Char) (cur base : Int) (fuel : Nat) :
    taitouLoop base (fuel + 1) (cmdGuochao ++ rest) cur =
      ⟨guochaoText, cur - base, true, false⟩ ::
        taitouLoop base fuel (plstrip rest) cur ∧
    (processTaitou (cmdGuochao ++ rest) base).head? =
      some ⟨guochaoText, 0, true, false⟩ := by
  refine ⟨taitouLoop_guochao_step rest cur base fuel, ?_⟩
  have hsne : cmdGuochao ++ rest ≠ [] := by
    rw [cmdGuochao_eq]
    simp
  have hpre : cmdGuochao.isPrefixOf (cmdGuochao ++ rest) = true := by
    rw [cmdGuochao_eq]
    simp [List.isPrefixOf]
  have hcond : ¬ (allCmds.all
      (fun c => (findSub c (cmdGuochao ++ rest)).isNone) = true) := by
    intro hall
    have hmem : cmdGuochao ∈ allCmds := by decide
    have hg := List.all_eq_true.mp hall cmdGuochao hmem
    rw [findSub_zero_of_front cmdGuochao _ hpre hsne] at hg
    simp at hg
  rw [processTaitou, if_neg hcond]
  have hlen : (cmdGuochao ++ rest).length + 1 = (rest.length + 3) + 1 := by
    rw [cmdGuochao_eq]
    simp only [List.length_append, List.length_cons, List.length_nil]
    omega
  rw [hlen, taitouLoop_guochao_step]
  rw [mergeSegs_cons _ _ (by simp)]
  rw [List.head?_cons]
  norm_num

/-! ## Generator (`Generator.generate`, converter.py 560-649).
The column-to-line stage is modelled as the list of output lines `parts`;
preamble conversion and the preserved front matter (not touched by any
claim) precede these lines in the real output and are omitted here. -/

/-- `\换页` -/
def huanyeLine : List Char := "\\换页".toList
/-- `\begin{数字化内容}` -/
def beginEnvLine : List Char := "\\begin\x7b数字化内容\x7d".toList
/-- `\end{数字化内容}` -/
def endEnvLine : List Char := "\\end\x7b数字化内容\x7d".toList
/-- `\newpage` -/
def newpageLine : List Char := "\\newpage".toList
/-- `\end{document}` -/
def endDocLine : List Char := "\\end\x7bdocument\x7d".toList
/-- Decimal rendering of a Python int. -/
def intChars (i : Int) : List Char := (toString i).toList
/-- `\chapter{...}` -/
def chapterLine (t : List Char) : List Char :=
  "\\chapter\x7b".toList ++ t ++ "\x7d".toList
/-- `\缩进[N]` -/
def suojinPrefix (i : Int) : List Char :=
  "\\缩进[".toList ++ intChars i ++ "]".toList
/-- `[indent=N]` when an override is present, nothing otherwise
(converter.py 636-637). -/
def indentOpt : Option Int → List Char
  | none => []
  | some v => "[indent=".toList ++ intChars v ++ "]".toList
/-- The dual-column line
`\缩进[N]\双列{\右小列OPT{right}\左小列OPT{left}}` (converter.py 639-640). -/
def dualLine (ind : Int) (r l : List Char) (ro lo : Option Int) : List Char :=
  suojinPrefix ind ++ "\\双列\x7b\\右小列".toList ++ indentOpt ro ++
    "\x7b".toList ++ r ++ "\x7d\\左小列".toList ++ indentOpt lo ++
    "\x7b".toList ++ l ++ "\x7d\x7d".toList
/-- A single column line: `\缩进[N] text` for non-zero indent, bare text
otherwise (converter.py 624-629). -/
def singleLine (ind : Int) (t : List Char) : List Char :=
  if ind ≠ 0 then suojinPrefix ind ++ (' ' :: t) else t

/-- The `if parts and parts[-1] == '\换页': parts.pop()` step
(converter.py 605-606). -/
def popHuanye (parts : List (List Char)) : List (List Char) :=
  if parts ≠ [] ∧ parts.getLast? = some huanyeLine then parts.dropLast else parts

/-- One iteration of the column loop of `Generator.generate`
(converter.py 594-642), acting on the accumulated output lines and the
chapter counter. -/
def genStep : (List (List Char) × Nat) → Column → (List (List Char) × Nat)
  | (parts, cnt), Column.chapter t =>
      if cnt + 1 = 1 then (parts, cnt + 1)
      else (popHuanye parts ++ [endEnvLine, newpageLine, chapterLine t, beginEnvLine],
        cnt + 1)
  | (parts, cnt), Column.newpage =>
      (if parts = [] ∨ parts.getLast? ≠ some huanyeLine then parts ++ [huanyeLine]
       else parts, cnt)
  | (parts, cnt), Column.yinzhang raw => (parts ++ [raw ++ ['%']], cnt)
  | (parts, cnt), Column.single ind t => (parts ++ [singleLine ind t], cnt)
  | (parts, cnt), Column.dual ind r l ro lo => (parts ++ [dualLine ind r l ro lo], cnt)

/-- The first chapter column's title (converter.py 581-585). -/
def firstChapterTitle : List Column → Option (List Char)
  | [] => none
  | Column.chapter t :: _ => some t
  | _ :: rest => firstChapterTitle rest

/-- The column section of `Generator.generate` (converter.py 580-647): the
first chapter heading hoisted above the environment opening, the column
loop, and the closing lines. -/
def generateBody (cols : List Column) : List (List Char) :=
  (cols.foldl genStep
    ((match firstChapterTitle cols with
      | some t => [chapterLine t]
      | none => []) ++ [beginEnvLine], 0)).1 ++ [[], endEnvLine, endDocLine, []]

theorem dropLast_append_ne {α : Type} (P l : List α) (h : l ≠ []) :
    (P ++ l).dropLast = P ++ l.dropLast := by
  induction P with
  | nil => simp
  | cons a P2 ih =>
    have hstep : (a :: (P2 ++ l)).dropLast = a :: (P2 ++ l).dropLast := by
      cases hpl : P2 ++ l with
      | nil => exact absurd (List.append_eq_nil.mp hpl).2 h
      | cons b l2 => rfl
    rw [List.cons_append, hstep, ih, List.cons_append]

theorem popHuanye_front (P parts : List (List Char))
    (hP : P.getLast? ≠ some huanyeLine) (h : P <+: parts) :
    P <+: popHuanye parts := by
  rw [popHuanye]
  by_cases hc : parts ≠ [] ∧ parts.getLast? = some huanyeLine
  · rw [if_pos hc]
    obtain ⟨l, hl⟩ := h
    cases l with
    | nil =>
      rw [List.append_nil] at hl
      subst hl
      exact absurd hc.2 hP
    | cons x l2 =>
      subst hl
      rw [dropLast_append_ne P (x :: l2) (by simp)]
      exact ⟨(x :: l2).dropLast, rfl⟩
  · rw [if_neg hc]
    exact h

theorem genStep_front (P : List (List Char)) (hP : P.getLast? ≠ some huanyeLine)
    (parts : List (List Char)) (cnt : Nat) (c : Column) (h : P <+: parts) :
    P <+: (genStep (parts, cnt) c).1 := by
  cases c with
  | chapter t =>
    rw [genStep]
    by_cases hcnt : cnt + 1 = 1
    · rw [if_pos hcnt]
      exact h
    · rw [if_neg hcnt]
      exact (popHuanye_front P parts hP h).trans (List.prefix_append _ _)
  | newpage =>
    rw [genStep]
    by_cases hc : parts = [] ∨ parts.getLast? ≠ some huanyeLine
    · rw [if_pos hc]
      exact h.trans (List.prefix_append _ _)
    · rw [if_neg hc]
      exact h
  | yinzhang raw => exact h.trans (List.prefix_append _ _)
  | single ind t => exact h.trans (List.prefix_append _ _)
  | dual ind r l ro lo => exact h.trans (List.prefix_append _ _)

theorem foldl_genStep_front (P : List (List Char))
    (hP : P.getLast? ≠ some huanyeLine) :
    ∀ (cols : List Column) (s0 : List (List Char) × Nat), P <+: s0.1 →
      P <+: (cols.foldl genStep s0).1 := by
  intro cols
  induction cols with
  | nil => intro s0 h; exact h
  | cons c rest ih =>
    intro s0 h
    rw [List.foldl_cons]
    exact ih (genStep s0 c) (genStep_front P hP s0.1 s0.2 c h)

/-- C4 (`functional_correctness`): (a) when the column list contains a
chapter column, its first chapter's heading is the very first emitted line,
immediately followed by the line opening the digitized-content environment
(no close/page-break/reopen around it, and the loop skips that chapter, so
the heading is emitted exactly once by the hoisting); (b) for every chapter
column seen by the loop after the first (`cnt ≥ 1`), the loop appends, in
order, the environment close, a page break, the chapter heading and the
environment reopen (collapsing a directly preceding emitted page break),
while the first one (`cnt = 0`) emits nothing in the loop. -/
theorem generate_chapter_protocol :
    (∀ (cols : List Column) (t : List Char), firstChapterTitle cols = some t →
      ∃ restLines, generateBody cols = chapterLine t :: beginEnvLine :: restLines) ∧
    (∀ (parts : List (List Char)) (cnt : Nat) (t : List Char),
      genStep (parts, cnt) (Column.chapter t) =
        if cnt = 0 then (parts, 1)
        else (popHuanye parts ++ [endEnvLine, newpageLine, chapterLine t, beginEnvLine],
          cnt + 1)) := by
  constructor
  · intro cols t hfc
    have hP : ([chapterLine t, beginEnvLine] : List (List Char)).getLast? ≠
        some huanyeLine := by
      intro hcon
      simp only [List.getLast?] at hcon
      rw [Option.some_inj] at hcon
      have : beginEnvLine ≠ huanyeLine := by decide
      exact this hcon
    have hpre := foldl_genStep_front [chapterLine t, beginEnvLine] hP cols
      ([chapterLine t, beginEnvLine], 0) ⟨[], by simp⟩
    obtain ⟨l, hl⟩ := hpre
    refine ⟨l ++ [[], endEnvLine, endDocLine, []], ?_⟩
    rw [generateBody, hfc]
    have harg : (([chapterLine t] ++ [beginEnvLine] : List (List Char)), 0) =
        (([chapterLine t, beginEnvLine] : List (List Char)), 0) := by simp
    rw [harg, ← hl]
    simp
  · intro parts cnt t
    rw [genStep]
    by_cases hcnt : cnt = 0
    · subst hcnt
      rw [if_pos rfl, if_pos rfl]
    · rw [if_neg hcnt, if_neg (by omega)]

/-- Demo column list for the C4 witness. -/
def demoColsC4 : List Column :=
  [Column.chapter "經部".toList, Column.single 0 "四庫全書".toList,
   Column.chapter "史部".toList]

/-- Witness for `generate_chapter_protocol`. -/
theorem generate_chapter_protocol_witness :
    firstChapterTitle demoColsC4 = some ("經部".toList) ∧
    (∃ restLines, generateBody demoColsC4 =
      chapterLine ("經部".toList) :: beginEnvLine :: restLines) ∧
    genStep ([], 1) (Column.chapter "史部".toList) =
      (popHuanye [] ++ [endEnvLine, newpageLine, chapterLine ("史部".toList),
        beginEnvLine], 2) := by
  refine ⟨rfl, generate_chapter_protocol.1 demoColsC4 ("經部".toList) rfl, ?_⟩
  rw [generate_chapter_protocol.2 [] 1 ("史部".toList), if_neg (by omega)]

theorem layoutJiazhuRun_right_none (n : Int) (run : List Block)
    (jcols : List Column) (h : layoutJiazhuRun n run = some jcols) :
    ∀ c ∈ jcols, dualRightIndentOf c = none := by
  rw [layoutJiazhuRun] at h
  by_cases hseg : (buildStream run).isEmpty
  · rw [if_pos hseg, Option.some_inj] at h
    subst h
    intro c hc
    simp at hc
  · rw [if_neg hseg] at h
    rcases Option.map_eq_some'.mp h with ⟨sc, hsc, hj⟩
    subst hj
    exact pairDual_rightIndent sc

theorem layout_right_none (n : Int) (blocks : List Block) (cols : List Column)
    (h : layout n blocks = some cols) :
    ∀ c ∈ cols, dualRightIndentOf c = none := by
  match blocks with
  | [] =>
    rw [layout, Option.some_inj] at h
    subst h
    intro c hc
    simp at hc
  | Block.chapter t :: rest =>
    rw [layout] at h
    rcases Option.map_eq_some'.mp h with ⟨cols2, h2, hc2⟩
    subst hc2
    intro c hc
    rcases List.mem_cons.mp hc with h3 | h3
    · subst h3; rfl
    · exact layout_right_none n rest cols2 h2 c h3
  | Block.newpage :: rest =>
    rw [layout] at h
    rcases Option.map_eq_some'.mp h with ⟨cols2, h2, hc2⟩
    subst hc2
    intro c hc
    rcases List.mem_cons.mp hc with h3 | h3
    · subst h3; rfl
    · exact layout_right_none n rest cols2 h2 c h3
  | Block.yinzhang r0 :: rest =>
    rw [layout] at h
    rcases Option.map_eq_some'.mp h with ⟨cols2, h2, hc2⟩
    subst hc2
    intro c hc
    rcases List.mem_cons.mp hc with h3 | h3
    · subst h3; rfl
    · exact layout_right_none n rest cols2 h2 c h3
  | Block.text t hstyle :: rest =>
    rw [layout] at h
    rcases Option.map_eq_some'.mp h with ⟨cols2, h2, hc2⟩
    subst hc2
    intro c hc
    rcases List.mem_cons.mp hc with h3 | h3
    · subst h3; rfl
    · exact layout_right_none n rest cols2 h2 c h3
  | Block.tiaumu lvl t :: rest =>
    rw [layout] at h
    rcases Option.map_eq_some'.mp h with ⟨cols2, h2, hc2⟩
    subst hc2
    intro c hc
    rcases List.mem_cons.mp hc with h3 | h3
    · subst h3; rfl
    · exact layout_right_none n rest cols2 h2 c h3
  | Block.paragraph t ind fInd :: rest =>
    rw [layout] at h
    cases hp : layoutParagraph n t ind fInd with
    | none =>
      rw [hp] at h
      cases h
    | some pcols =>
      rw [hp] at h
      rcases Option.map_eq_some'.mp h with ⟨cols2, h2, hc2⟩
      subst hc2
      intro c hc
      rcases List.mem_append.mp hc with h3 | h3
      · exact paraLoop_right_none n ind fInd (t.length + 1) t true pcols hp c h3
      · exact layout_right_none n rest cols2 h2 c h3
  | Block.jiazhu t ind sg :: rest =>
    rw [layout] at h
    cases hj : layoutJiazhuRun n (Block.jiazhu t ind sg :: rest.takeWhile isJiazhu) with
    | none =>
      rw [hj] at h
      cases h
    | some jcols =>
      rw [hj] at h
      rcases Option.map_eq_some'.mp h with ⟨cols2, h2, hc2⟩
      subst hc2
      intro c hc
      rcases List.mem_append.mp hc with h3 | h3
      · exact layoutJiazhuRun_right_none n _ jcols hj c h3
      · exact layout_right_none n (rest.dropWhile isJiazhu) cols2 h2 c h3
termination_by blocks.length
decreasing_by
  all_goals simp only [List.length_cons]
  all_goals first
    | omega
    | exact Nat.lt_succ_of_le (dropWhile_length_le isJiazhu rest)

/-- C10 (`invariants`): every dual column produced by layout has its right
sub-column indent override absent, and on such a column the generator's
dual-column line places the opening brace of the right sub-column text
directly after the `\右小列` sub-command — no indent option is ever emitted
on the right sub-column (only the left one can carry `indentOpt lo`). -/
theorem dual_right_override_absent (n : Int) (blocks : List Block)
    (cols : List Column) (h : layout n blocks = some cols) :
    (∀ c ∈ cols, dualRightIndentOf c = none) ∧
    (∀ (ind : Int) (r l : List Char) (lo : Option Int)
        (parts : List (List Char)) (cnt : Nat),
      genStep (parts, cnt) (Column.dual ind r l none lo) =
        (parts ++ [suojinPrefix ind ++ "\\双列\x7b\\右小列".toList ++
          "\x7b".toList ++ r ++ "\x7d\\左小列".toList ++ indentOpt lo ++
          "\x7b".toList ++ l ++ "\x7d\x7d".toList], cnt)) := by
  refine ⟨layout_right_none n blocks cols h, ?_⟩
  intro ind r l lo parts cnt
  rw [genStep, dualLine]
  rw [show indentOpt none = ([] : List Char) from rfl, List.append_nil]

/-- Demo block list for the C10 witness. -/
def demoBlocksC10 : List Block :=
  [Block.jiazhu "注解之文".toList 2 none]

/-- Witness for `dual_right_override_absent`: the single jiazhu block above
lays out to one dual column with no right indent override. -/
theorem dual_right_override_absent_witness :
    layout 21 demoBlocksC10 =
      some [Column.dual 2 ("注解之文".toList) [] none none] ∧
    (∀ c ∈ [Column.dual 2 ("注解之文".toList) [] none none],
      dualRightIndentOf c = none) := by
  have hl : layout 21 demoBlocksC10 =
      some [Column.dual 2 ("注解之文".toList) [] none none] := by
    rw [show demoBlocksC10 = [Block.jiazhu ("注解之文".toList) 2 none] from rfl]
    rw [layout]
    simp only [List.takeWhile_nil, List.dropWhile_nil]
    have hrun : layoutJiazhuRun 21 [Block.jiazhu ("注解之文".toList) 2 none] =
        some [Column.dual 2 ("注解之文".toList) [] none none] := by decide
    rw [hrun, layout]
    simp
  exact ⟨hl, (dual_right_override_absent 21 demoBlocksC10 _ hl).1⟩

/-! ## Parser (`Parser._parse_body` / `Parser._try_parse_line`,
converter.py 181-370), for a run without a plugin (`plugin = None`).
The body-splitting steps (`_split_document`, `_split_body`, removal of the
`\begin{正文}` markers) only select the line range handed to the scanning
loop and are not modelled; the claims quantify over the scanned lines. -/

/-- The content before the *last* `}` of `r` (the greedy `(.+)\}` suffix of
the `re.match` patterns), `none` when `r` has no `}`. -/
def lastBraceSplit (r : List Char) : Option (List Char) :=
  if (r.reverse.dropWhile (fun c => c != '\x7d')).isEmpty then none
  else some (r.reverse.dropWhile (fun c => c != '\x7d')).tail.reverse

/-- `re.match(r'\\chapter\{(.+)\}', stripped)` (converter.py 220). -/
def matchChapter (s : List Char) : Option (List Char) :=
  if ("\\chapter\x7b".toList).isPrefixOf s then
    match lastBraceSplit (s.drop 9) with
    | some content => if content.isEmpty then none else some content
    | none => none
  else none

/-- `re.match(r'\\印章\s*\[', stripped)` (converter.py 231). -/
def matchYinzhangStart (s : List Char) : Bool :=
  if ("\\印章".toList).isPrefixOf s then
    match (s.drop 3).dropWhile pyIsSpace with
    | '[' :: _ => true
    | _ => false
  else false

/-- `re.match(r'\\begin\{段落\}(\[.*?\])?', stripped)` (converter.py 236):
`some opts` when the line opens a paragraph environment, with `opts` the
optional bracketed option group (brackets included, as `m.group(1)`). -/
def matchBeginParagraph (s : List Char) : Option (Option (List Char)) :=
  if ("\\begin\x7b段落\x7d".toList).isPrefixOf s then
    match s.drop 10 with
    | '[' :: rest2 =>
      if (rest2.takeWhile (fun c => c != ']')).length = rest2.length then some none
      else some (some ('[' :: rest2.takeWhile (fun c => c != ']') ++ [']']))
    | _ => some none
  else none

/-- `re.match(r'\\条目\[(\d+)\]\{(.+)\}', stripped)` (converter.py 241). -/
def matchTiaomu (s : List Char) : Option (Nat × List Char) :=
  if ("\\条目[".toList).isPrefixOf s then
    if ((s.drop 4).takeWhile Char.isDigit).isEmpty then none
    else
      match (s.drop 4).drop ((s.drop 4).takeWhile Char.isDigit).length with
      | ']' :: '\x7b' :: body =>
        match lastBraceSplit body with
        | some content =>
          if content.isEmpty then none
          else some (natOfDigits ((s.drop 4).takeWhile Char.isDigit), content)
        | none => none
      | _ => none
  else none

/-- First index `j` with `r[j] = ']'` and `r[j+1] = '{'` — where the
non-greedy `\[.*?\]\{` of the style/jiazhu/seal patterns closes. -/
def findBracketBrace : List Char → Option Nat
  | [] => none
  | ']' :: '\x7b' :: _ => some 0
  | _ :: rest => (findBracketBrace rest).map (fun k => k + 1)

/-- The jiazhu pattern `\\夹注\[.*?\]\{(.+?)\}` matched at the start of
`s` (the non-greedy option group closing at the first `]{`), returning the
first brace group's content. -/
def matchJiazhuHere (s : List Char) : Option (List Char) :=
  if ("\\夹注[".toList).isPrefixOf s then
    match findBracketBrace (s.drop 4) with
    | none => none
    | some j =>
      if ((s.drop 4).drop (j + 2)).takeWhile (fun c => c != '\x7d') = [] then none
      else if (((s.drop 4).drop (j + 2)).takeWhile (fun c => c != '\x7d')).length =
          ((s.drop 4).drop (j + 2)).length then none
      else some (((s.drop 4).drop (j + 2)).takeWhile (fun c => c != '\x7d'))
  else none

/-- `re.search(r'\\夹注\[.*?\]\{(.+?)\}', text)` (converter.py 248):
start index of the first match and its group. -/
def searchJiazhu : List Char → Option (Nat × List Char)
  | [] => none
  | c :: rest =>
    match matchJiazhuHere (c :: rest) with
    | some g => some (0, g)
    | none => (searchJiazhu rest).map (fun q => (q.1 + 1, q.2))

/-- `re.match(r'\\样式\[.*?\]\{(.+)\}', stripped)` (converter.py 281): the
non-greedy option group closing at the first `]{`, then the greedy body up
to the last `}`. -/
def matchStyle (s : List Char) : Option (List Char) :=
  if ("\\样式[".toList).isPrefixOf s then
    match findBracketBrace (s.drop 4) with
    | none => none
    | some j =>
      match lastBraceSplit ((s.drop 4).drop (j + 2)) with
      | some content => if content.isEmpty then none else some content
      | none => none
  else none

/-- The brace-balance test of `_parse_yinzhang` (converter.py 301-310):
both braces present and the walk of `{`/`}` ends at depth zero. -/
def braceDepthDone (comb : List Char) : Bool :=
  comb.contains '\x7b' && comb.contains '\x7d' &&
    (comb.foldl
      (fun d c => if c = '\x7b' then d + 1 else if c = '\x7d' then d - 1 else d)
      (0 : Int)) = 0

/-- The collection loop of `_parse_yinzhang` (converter.py 296-310):
append each stripped line plus a space until the braces balance. -/
def yinzhangLoop : List (List Char) → List Char → Nat → (List Char × Nat)
  | [], comb, consumed => (comb, consumed)
  | ln :: rest, comb, consumed =>
    if braceDepthDone (comb ++ pstrip ln ++ [' ']) then
      (comb ++ pstrip ln ++ [' '], consumed + 1)
    else yinzhangLoop rest (comb ++ pstrip ln ++ [' ']) (consumed + 1)

/-- `re.match(r'\\印章\[(.+?)\]\{(.+?)\}', combined)` (converter.py 317):
both groups non-greedy (the option group closing at the first `]{`). -/
def matchYinzhangFull (s : List Char) : Option (List Char × List Char) :=
  if ("\\印章[".toList).isPrefixOf s then
    match findBracketBrace (s.drop 4) with
    | none => none
    | some j =>
      if j = 0 then none
      else
        if (((s.drop 4).drop (j + 2)).takeWhile (fun c => c != '\x7d')).isEmpty then none
        else if (((s.drop 4).drop (j + 2)).takeWhile (fun c => c != '\x7d')).length =
            ((s.drop 4).drop (j + 2)).length then none
        else some ((s.drop 4).take j,
          ((s.drop 4).drop (j + 2)).takeWhile (fun c => c != '\x7d'))
  else none

/-- `Parser._parse_yinzhang` (converter.py 294-325). -/
def parseYinzhang (lines : List (List Char)) (idx : Nat) : (Block × Nat) :=
  ((match matchYinzhangFull ((pstrip (yinzhangLoop (lines.drop idx) [] 0).1).filter
      (fun c => !(pyIsSpace c))) with
    | some q =>
      Block.yinzhang ("\\印章[".toList ++ q.1 ++ "]\x7b".toList ++ q.2 ++
        "\x7d".toList)
    | none =>
      Block.yinzhang ((pstrip (yinzhangLoop (lines.drop idx) [] 0).1).filter
        (fun c => !(pyIsSpace c)))),
   (yinzhangLoop (lines.drop idx) [] 0).2)

/-- One attempted match of `KEY\s*=\s*(\d+)` at the start of `s`. -/
def matchKeyNumHere (pat s : List Char) : Option Nat :=
  if pat.isPrefixOf s then
    match (s.drop pat.length).dropWhile pyIsSpace with
    | '=' :: r2 =>
      if ((r2.dropWhile pyIsSpace).takeWhile Char.isDigit).isEmpty then none
      else some (natOfDigits ((r2.dropWhile pyIsSpace).takeWhile Char.isDigit))
    | _ => none
  else none

/-- `re.search(KEY + r'\s*=\s*(\d+)', opts)` (converter.py 333-337). -/
def searchKeyNum (pat : List Char) : List Char → Option Nat
  | [] => none
  | c :: rest =>
    match matchKeyNumHere pat (c :: rest) with
    | some v => some v
    | none => searchKeyNum pat rest

/-- The content-collection loop of `_parse_paragraph`
(converter.py 341-347): lines until one containing `\end{段落}`; returns
the collected lines and the number of lines consumed after the opening. -/
def paraCollect : List (List Char) → (List (List Char) × Nat)
  | [] => ([], 0)
  | ln :: rest =>
    if (findSub ("\\end\x7b段落\x7d".toList) ln).isSome then ([], 1)
    else
      match paraCollect rest with
      | (cl, k) => (ln :: cl, k + 1)

/-- The line-merging step of `_parse_paragraph` (converter.py 350-357):
strip each line, skip pure comment lines, cut each line at its first `%`. -/
def paraText : List (List Char) → List Char
  | [] => []
  | cl :: rest =>
    if (pstrip cl).head? = some '%' then paraText rest
    else (pstrip cl).takeWhile (fun c => c != '%') ++ paraText rest

/-- The `indent=N` option of a paragraph environment (converter.py 329-335;
note the regex `indent\s*=\s*(\d+)` also matches inside `first-indent=N`,
which the model reproduces through `searchKeyNum`). -/
def paraIndent (opts : Option (List Char)) : Int :=
  match opts with
  | none => 0
  | some o => ((searchKeyNum ("indent".toList) o).getD 0 : Nat)

/-- The `first-indent=N` option, defaulting to the indent
(converter.py 336-338, 366). -/
def paraFirstIndent (opts : Option (List Char)) : Int :=
  match opts with
  | none => 0
  | some o =>
    match searchKeyNum ("first-indent".toList) o with
    | some v => (v : Int)
    | none => paraIndent (some o)

/-- `Parser._parse_paragraph` (converter.py 327-370). -/
def parseParagraph (lines : List (List Char)) (idx : Nat)
    (opts : Option (List Char)) : (List Block × Nat) :=
  ((if (strip_punct (paraText (paraCollect (lines.drop (idx + 1))).1)).isEmpty then []
    else [Block.paragraph
      (strip_punct (paraText (paraCollect (lines.drop (idx + 1))).1))
      (paraIndent opts) (paraFirstIndent opts)]),
   1 + (paraCollect (lines.drop (idx + 1))).2)

/-- `Parser._try_parse_line` without a plugin (converter.py 215-292):
priority matching of the built-in forms, with the final fallback turning
any other non-empty line into a punctuation-stripped text block. -/
def tryParseLine (line : List Char) (lines : List (List Char)) (idx : Nat) :
    (List Block × Nat) :=
  match matchChapter (pstrip line) with
  | some t => ([Block.chapter t], 1)
  | none =>
    if pstrip line = "\\newpage".toList then ([Block.newpage], 1)
    else if matchYinzhangStart (pstrip line) then
      match parseYinzhang lines idx with
      | (b, k) => ([b], k)
    else
      match matchBeginParagraph (pstrip line) with
      | some opts => parseParagraph lines idx opts
      | none =>
        match matchTiaomu (pstrip line) with
        | some (lvl, rawText) =>
          ([Block.tiaumu lvl
            (match searchJiazhu (strip_punct (strip_book_markers rawText)) with
             | some q =>
               pstrip ((strip_punct (strip_book_markers rawText)).take q.1) ++
                 strip_punct q.2
             | none => strip_punct (strip_book_markers rawText))], 1)
        | none =>
          if !(pstrip line).isEmpty && !((pstrip line).head? = some '\\') then
            (if (strip_punct (strip_book_markers (pstrip line))).isEmpty then []
             else [Block.text (strip_punct (strip_book_markers (pstrip line))) false], 1)
          else
            match matchStyle (pstrip line) with
            | some g =>
              ([Block.text (strip_punct (strip_book_markers g)) true], 1)
            | none =>
              if !(pstrip line).isEmpty then
                (if (strip_punct (strip_book_markers (pstrip line))).isEmpty then []
                 else [Block.text (strip_punct (strip_book_markers (pstrip line))) false], 1)
              else ([], 1)

/-- The scanning loop of `Parser._parse_body` (converter.py 187-213):
skip blank and pure-comment lines, parse each other line, advance by the
consumed line count. -/
def parseBodyLoop (lines : List (List Char)) : Nat → Nat → List Block
  | 0, _ => []
  | fuel + 1, i =>
    if h : i < lines.length then
      if (pstrip (prstrip (lines.get ⟨i, h⟩))).isEmpty then
        parseBodyLoop lines fuel (i + 1)
      else if (pstrip (prstrip (lines.get ⟨i, h⟩))).head? = some '%' then
        parseBodyLoop lines fuel (i + 1)
      else
        match tryParseLine (prstrip (lines.get ⟨i, h⟩)) lines i with
        | (bs, consumed) =>
          bs ++ parseBodyLoop lines fuel (i + (if 0 < consumed then consumed else 1))
    else []

/-- `Parser._parse_body` on the scanned body lines (no plugin). -/
def parseBody (lines : List (List Char)) : List Block :=
  parseBodyLoop lines (lines.length + 1) 0

/-- A text is clean when it contains no punctuation character and neither
book-title bracket. -/
def cleanText (t : List Char) : Prop :=
  ∀ c ∈ t, c ∉ PUNCTUATION ∧ c ≠ '《' ∧ c ≠ '》'

/-- The cleanliness obligation per block kind: the claim constrains the
text field of plain-text, leveled-entry and paragraph blocks. -/
def blockCleanOK : Block → Prop
  | Block.text t _ => cleanText t
  | Block.tiaumu _ t => cleanText t
  | Block.paragraph t _ _ => cleanText t
  | _ => True

theorem strip_punct_clean (s : List Char) : cleanText (strip_punct s) := by
  intro c hc
  rw [strip_punct] at hc
  have hp := List.of_mem_filter hc
  rw [Bool.not_eq_true'] at hp
  have hnot : c ∉ PUNCTUATION := by
    intro hmem
    have hp2 : PUNCTUATION.contains c = true := List.elem_iff.mpr hmem
    rw [hp] at hp2
    exact Bool.false_ne_true hp2
  refine ⟨hnot, ?_, ?_⟩
  · intro he
    subst he
    exact hnot (by decide)
  · intro he
    subst he
    exact hnot (by decide)

theorem cleanText_mono (t1 t2 : List Char) (hsub : ∀ c ∈ t2, c ∈ t1)
    (h : cleanText t1) : cleanText t2 :=
  fun c hc => h c (hsub c hc)

theorem cleanText_append (a b : List Char) (ha : cleanText a) (hb : cleanText b) :
    cleanText (a ++ b) := by
  intro c hc
  rcases List.mem_append.mp hc with h | h
  · exact ha c h
  · exact hb c h

theorem mem_pstrip (s : List Char) (c : Char) (h : c ∈ pstrip s) : c ∈ s := by
  rw [pstrip, prstrip] at h
  rw [List.mem_reverse] at h
  have h2 := mem_dropWhile_mem pyIsSpace _ c h
  rw [List.mem_reverse] at h2
  exact mem_dropWhile_mem pyIsSpace s c h2

theorem cleanText_pstrip_take (t : List Char) (n : Nat) (h : cleanText t) :
    cleanText (pstrip (t.take n)) := by
  intro c hc
  exact h c (List.mem_of_mem_take (mem_pstrip _ c hc))

theorem parseYinzhang_shape (lines : List (List Char)) (idx : Nat) :
    ∃ raw, (parseYinzhang lines idx).1 = Block.yinzhang raw := by
  unfold parseYinzhang
  cases matchYinzhangFull ((pstrip (yinzhangLoop (lines.drop idx) [] 0).1).filter
      (fun c => !(pyIsSpace c))) with
  | some q => exact ⟨_, rfl⟩
  | none => exact ⟨_, rfl⟩

theorem parseParagraph_clean (lines : List (List Char)) (idx : Nat)
    (opts : Option (List Char)) :
    ∀ b ∈ (parseParagraph lines idx opts).1, blockCleanOK b := by
  intro b hb
  unfold parseParagraph at hb
  simp only at hb
  by_cases hemp :
      (strip_punct (paraText (paraCollect (lines.drop (idx + 1))).1)).isEmpty = true
  · rw [if_pos hemp] at hb
    simp at hb
  · rw [if_neg hemp] at hb
    simp only [List.mem_singleton] at hb
    subst hb
    exact strip_punct_clean _

theorem tryParseLine_clean (line : List Char) (lines : List (List Char))
    (idx : Nat) : ∀ b ∈ (tryParseLine line lines idx).1, blockCleanOK b := by
  intro b hb
  unfold tryParseLine at hb
  cases hch : matchChapter (pstrip line) with
  | some t =>
    rw [hch] at hb
    simp only [List.mem_singleton] at hb
    subst hb
    exact trivial
  | none =>
    rw [hch] at hb
    by_cases hnp : pstrip line = "\\newpage".toList
    · rw [if_pos hnp] at hb
      simp only [List.mem_singleton] at hb
      subst hb
      exact trivial
    · rw [if_neg hnp] at hb
      by_cases hyz : matchYinzhangStart (pstrip line) = true
      · rw [if_pos hyz] at hb
        obtain ⟨raw, hraw⟩ := parseYinzhang_shape lines idx
        rcases hpy : parseYinzhang lines idx with ⟨b2, k⟩
        rw [hpy] at hb
        simp only [List.mem_singleton] at hb
        subst hb
        rw [hpy] at hraw
        simp only at hraw
        rw [hraw]
        exact trivial
      · rw [if_neg hyz] at hb
        cases hbp : matchBeginParagraph (pstrip line) with
        | some opts =>
          rw [hbp] at hb
          exact parseParagraph_clean lines idx opts b hb
        | none =>
          rw [hbp] at hb
          cases htm : matchTiaomu (pstrip line) with
          | some q =>
            rw [htm] at hb
            simp only [List.mem_singleton] at hb
            subst hb
            show cleanText _
            cases hsj : searchJiazhu (strip_punct (strip_book_markers q.2)) with
            | some q2 =>
              exact cleanText_append _ _
                (cleanText_pstrip_take _ _ (strip_punct_clean _))
                (strip_punct_clean _)
            | none =>
              exact strip_punct_clean _
          | none =>
            rw [htm] at hb
            by_cases hplain : (!(pstrip line).isEmpty &&
                !((pstrip line).head? = some '\\')) = true
            · rw [if_pos hplain] at hb
              by_cases hemp :
                  (strip_punct (strip_book_markers (pstrip line))).isEmpty = true
              · rw [if_pos hemp] at hb
                simp at hb
              · rw [if_neg hemp] at hb
                simp only [List.mem_singleton] at hb
                subst hb
                exact strip_punct_clean _
            · rw [if_neg hplain] at hb
              cases hst : matchStyle (pstrip line) with
              | some g =>
                rw [hst] at hb
                simp only [List.mem_singleton] at hb
                subst hb
                exact strip_punct_clean _
              | none =>
                rw [hst] at hb
                by_cases hne : (!(pstrip line).isEmpty) = true
                · rw [if_pos hne] at hb
                  by_cases hemp :
                      (strip_punct (strip_book_markers (pstrip line))).isEmpty = true
                  · rw [if_pos hemp] at hb
                    simp at hb
                  · rw [if_neg hemp] at hb
                    simp only [List.mem_singleton] at hb
                    subst hb
                    exact strip_punct_clean _
                · rw [if_neg hne] at hb
                  simp at hb

/-- C6 counterexample: chapter titles are appended verbatim
(converter.py 220-222, no `strip_punct`/`strip_book_markers` call), so a
parsed chapter block can carry the book-title bracket `《`, which is also a
member of the punctuation set. -/
def demoChapterLineC6 : List Char := "\\chapter\x7b《史記》\x7d".toList

theorem chapter_title_keeps_punct_counterexample :
    parseBody [demoChapterLineC6] = [Block.chapter ("《史記》".toList)] ∧
    '《' ∈ ("《史記》".toList) ∧ '《' ∈ PUNCTUATION := by
  refine ⟨?_, by decide, by decide⟩
  decide

/-- C6 amended (`invariants`): every text field of a plain-text,
leveled-entry or paragraph block produced by the parser's scanning loop is
free of punctuation characters and of both book-title brackets; chapter
titles are the exception — they are emitted verbatim and may retain
punctuation. -/
theorem parse_text_fields_clean (lines : List (List Char)) :
    ∀ (fuel i : Nat), ∀ b ∈ parseBodyLoop lines fuel i, blockCleanOK b := by
  intro fuel
  induction fuel with
  | zero =>
    intro i b hb
    simp [parseBodyLoop] at hb
  | succ f ih =>
    intro i b hb
    rw [parseBodyLoop] at hb
    by_cases h : i < lines.length
    · rw [dif_pos h] at hb
      by_cases h1 : (pstrip (prstrip (lines.get ⟨i, h⟩))).isEmpty = true
      · rw [if_pos h1] at hb
        exact ih (i + 1) b hb
      · rw [if_neg h1] at hb
        by_cases h2 : (pstrip (prstrip (lines.get ⟨i, h⟩))).head? = some '%'
        · rw [if_pos h2] at hb
          exact ih (i + 1) b hb
        · rw [if_neg h2] at hb
          rcases hpt : tryParseLine (prstrip (lines.get ⟨i, h⟩)) lines i with ⟨bs, k⟩
          rw [hpt] at hb
          rcases List.mem_append.mp hb with h3 | h3
          · have := tryParseLine_clean (prstrip (lines.get ⟨i, h⟩)) lines i b
            rw [hpt] at this
            exact this h3
          · exact ih _ b h3
    · rw [dif_neg h] at hb
      simp at hb

/-- Witness for `parse_text_fields_clean`. -/
theorem parse_text_fields_clean_witness :
    (Block.text ("四庫全書總目".toList) false) ∈
      parseBodyLoop [("《四庫全書》總目。".toList)] 2 0 ∧
    blockCleanOK (Block.text ("四庫全書總目".toList) false) :=
  ⟨by decide, parse_text_fields_clean [("《四庫全書》總目。".toList)] 2 0 _ (by decide)⟩

/-- C9 (`error_handling`): a body line that starts with a backslash and
matches none of the built-in forms (chapter, `\newpage`, seal, paragraph
environment, leveled entry, style line) is not an error: with no plugin,
`_try_parse_line` falls through to the final branch, which appends one
plain-text block holding the line with punctuation and book-title brackets
stripped (nothing when the stripped text is empty) and reports one line
consumed, and the scanning loop then continues with the next line. -/
theorem unknown_command_fallback (lines : List (List Char)) (fuel i : Nat)
    (h : i < lines.length) (line : List Char)
    (hline : prstrip (lines.get ⟨i, h⟩) = line)
    (hne : ¬ (pstrip line).isEmpty = true)
    (hbs : (pstrip line).head? = some '\\')
    (hch : matchChapter (pstrip line) = none)
    (hnp : pstrip line ≠ "\\newpage".toList)
    (hyz : matchYinzhangStart (pstrip line) = false)
    (hbp : matchBeginParagraph (pstrip line) = none)
    (htm : matchTiaomu (pstrip line) = none)
    (hst : matchStyle (pstrip line) = none) :
    tryParseLine line lines i =
      ((if (strip_punct (strip_book_markers (pstrip line))).isEmpty then []
        else [Block.text (strip_punct (strip_book_markers (pstrip line))) false]), 1) ∧
    parseBodyLoop lines (fuel + 1) i =
      (if (strip_punct (strip_book_markers (pstrip line))).isEmpty then []
       else [Block.text (strip_punct (strip_book_markers (pstrip line))) false]) ++
        parseBodyLoop lines fuel (i + 1) := by
  have hpart1 : tryParseLine line lines i =
      ((if (strip_punct (strip_book_markers (pstrip line))).isEmpty then []
        else [Block.text (strip_punct (strip_book_markers (pstrip line))) false]), 1) := by
    have hne2 : (pstrip line).isEmpty = false := by
      cases hE : (pstrip line).isEmpty
      · rfl
      · exact absurd hE hne
    unfold tryParseLine
    rw [hch, if_neg hnp, if_neg (by rw [hyz]; exact Bool.false_ne_true), hbp, htm]
    rw [if_neg (by rw [hbs]; simp), hst, if_pos (by rw [hne2]; rfl)]
  refine ⟨hpart1, ?_⟩
  rw [parseBodyLoop, dif_pos h, hline]
  rw [if_neg hne, if_neg (by rw [hbs]; simp), hpart1]
  rfl

/-- A line carrying an unrecognized backslash command, for the C9 witness. -/
def demoUnknownLine : List Char := "\\未知指令 甲，乙".toList

/-- Witness for `unknown_command_fallback`. -/
theorem unknown_command_fallback_witness :
    ((0 : Nat) < ([demoUnknownLine] : List (List Char)).length) ∧
    tryParseLine demoUnknownLine [demoUnknownLine] 0 =
      ([Block.text (strip_punct (strip_book_markers (pstrip demoUnknownLine))) false], 1) ∧
    parseBodyLoop [demoUnknownLine] 1 0 =
      [Block.text (strip_punct (strip_book_markers (pstrip demoUnknownLine))) false] ++
        parseBodyLoop [demoUnknownLine] 0 1 := by
  have hmain := unknown_command_fallback [demoUnknownLine] 0 0 (by decide)
    demoUnknownLine (by decide) (by decide) (by decide) (by decide) (by decide)
    (by decide) (by decide) (by decide) (by decide)
  have hif : (strip_punct (strip_book_markers (pstrip demoUnknownLine))).isEmpty =
      false := by decide
  refine ⟨by decide, ?_, ?_⟩
  · rw [hmain.1, if_neg (by rw [hif]; exact Bool.false_ne_true)]
  · rw [hmain.2, if_neg (by rw [hif]; exact Bool.false_ne_true)]

end GujiConv
